import Mathlib

/-!
Verification development for the tender extraction-and-reconciliation
pipeline (ai_services.py, search_services.py, generate_report.py).

Python values flowing through the pipeline (JSON-shaped data) are embedded
as the inductive type `JVal`; Python strings are embedded as `List Char`;
Python floats are embedded as exact rationals `ℚ` (the numeric comparisons
exercised here are decided identically on ℚ and on IEEE doubles for the
decimal magnitudes involved); fallible code returns `Except`/`Option`.
-/

set_option maxHeartbeats 1000000
set_option maxRecDepth 4000

/-- Str abbreviates a Python string, embedded as a list of characters. -/
abbrev Str := List Char

/-- Helper turning a Lean string literal into the `Str` embedding. -/
def str (s : String) : Str := s.toList

/-- Whitespace set of Python `str.strip()` / `\s` (ASCII part; the texts
handled by this pipeline contain no exotic Unicode spaces). -/
def pyIsSpace (c : Char) : Bool :=
  c = ' ' || c = '\t' || c = '\n' || c = '\r' || c = Char.ofNat 11 || c = Char.ofNat 12

/-- Python `str.strip()`: drop whitespace from both ends. -/
def pyStrip (s : Str) : Str :=
  ((s.dropWhile pyIsSpace).reverse.dropWhile pyIsSpace).reverse

/-- Python `str.lstrip()`. -/
def pyLStrip (s : Str) : Str := s.dropWhile pyIsSpace

/-- Python `str.lower()` for the alphabets appearing in this code base:
ASCII letters and the Russian Cyrillic block (А..Я and Ё). -/
def pyLowerChar (c : Char) : Char :=
  if 'A' ≤ c ∧ c ≤ 'Z' then Char.ofNat (c.toNat + 32)
  else if 1040 ≤ c.toNat ∧ c.toNat ≤ 1071 then Char.ofNat (c.toNat + 32)
  else if c.toNat = 1025 then Char.ofNat 1105
  else c

/-- Python `str.lower()` on a whole string. -/
def pyLower (s : Str) : Str := s.map pyLowerChar

/-- Test whether `pre` is a leading segment of `s` (Python `startswith`). -/
def strStarts (s pre : Str) : Bool :=
  match s, pre with
  | _, [] => true
  | [], _ :: _ => false
  | c :: cs, p :: ps => c = p && strStarts cs ps

/-- Substring test (Python `pat in s`). -/
def strContains (s pat : Str) : Bool :=
  match s with
  | [] => strStarts [] pat
  | _ :: rest => strStarts s pat || strContains rest pat

/-- Python `str.splitlines()` restricted to the line breaks `\n`, `\r`,
`\r\n` that occur in the documents handled here. -/
def splitLines (s : Str) : List Str :=
  match s with
  | [] => []
  | _ :: _ => splitLinesGo s []
where
  /-- Accumulates the current line (reversed) while scanning. -/
  splitLinesGo : Str → Str → List Str
  | [], acc => [acc.reverse]
  | '\r' :: '\n' :: rest, acc => acc.reverse :: splitLinesGo rest []
  | '\r' :: rest, acc => acc.reverse :: splitLinesGo rest []
  | '\n' :: rest, acc => acc.reverse :: splitLinesGo rest []
  | c :: rest, acc => splitLinesGo rest (c :: acc)

/-- Value of a digit character. -/
def digitVal (c : Char) : Nat := c.toNat - 48

/-- Natural number denoted by a digit string (most significant first). -/
def digitsToNat (ds : Str) : Nat :=
  ds.foldl (fun acc c => acc * 10 + digitVal c) 0

/-- Decimal digits of a natural number, via `Nat.toDigits`. -/
def natToStr (n : Nat) : Str := Nat.toDigits 10 n

/-- Decimal rendering of an integer (Python `str(int)`). -/
def intToStr (n : ℤ) : Str :=
  if n < 0 then '-' :: natToStr n.natAbs else natToStr n.natAbs

/- ===================== Exact rationals ===================== -/

/-- Exact rational numbers embedding Python floats: the decimal values,
comparisons and arithmetic this pipeline performs are exact at these
magnitudes, so an exact fraction (gcd-normalized integer numerator over
positive natural denominator) decides every branch identically to IEEE
doubles. All operations reduce in the kernel. -/
structure Q where
  num : ℤ
  den : ℕ
  deriving Repr, DecidableEq

/-- Normalized fraction constructor. -/
def Q.mk' (n : ℤ) (d : ℕ) : Q :=
  if d = 0 then ⟨0, 1⟩
  else
    let g := Nat.gcd n.natAbs d
    ⟨n / (g : ℤ), d / g⟩

/-- Embed a natural number. -/
def Q.ofNat (n : ℕ) : Q := ⟨(n : ℤ), 1⟩

/-- Embed an integer. -/
def Q.ofInt (n : ℤ) : Q := ⟨n, 1⟩

/-- Addition. -/
def Q.add (x y : Q) : Q := Q.mk' (x.num * (y.den : ℤ) + y.num * (x.den : ℤ)) (x.den * y.den)

/-- Negation. -/
def Q.neg (x : Q) : Q := ⟨-x.num, x.den⟩

/-- Subtraction. -/
def Q.sub (x y : Q) : Q := Q.add x (Q.neg y)

/-- Multiplication. -/
def Q.mul (x y : Q) : Q := Q.mk' (x.num * y.num) (x.den * y.den)

/-- Reciprocal (never applied at zero by the embedded code). -/
def Q.inv (x : Q) : Q :=
  if 0 ≤ x.num then Q.mk' (x.den : ℤ) x.num.toNat else Q.mk' (-(x.den : ℤ)) (-x.num).toNat

/-- Division. -/
def Q.div (x y : Q) : Q := Q.mul x (Q.inv y)

/-- Boolean order test (cross multiplication; denominators positive). -/
def Q.ble (x y : Q) : Bool := decide (x.num * (y.den : ℤ) ≤ y.num * (x.den : ℤ))

/-- Strict boolean order test. -/
def Q.blt (x y : Q) : Bool := decide (x.num * (y.den : ℤ) < y.num * (x.den : ℤ))

/-- Absolute value. -/
def Q.abs (x : Q) : Q := ⟨(x.num.natAbs : ℤ), x.den⟩

/-- Python `max` of two numbers. -/
def Q.max2 (x y : Q) : Q := if Q.ble x y then y else x

/-- Python `min` of two numbers. -/
def Q.min2 (x y : Q) : Q := if Q.ble x y then x else y

instance (n : ℕ) : OfNat Q n := ⟨Q.ofNat n⟩
instance : Add Q := ⟨Q.add⟩
instance : Sub Q := ⟨Q.sub⟩
instance : Mul Q := ⟨Q.mul⟩
instance : Div Q := ⟨Q.div⟩
instance : Neg Q := ⟨Q.neg⟩
instance : LE Q := ⟨fun a b => Q.ble a b = true⟩
instance : LT Q := ⟨fun a b => Q.blt a b = true⟩
instance (a b : Q) : Decidable (a ≤ b) := inferInstanceAs (Decidable (Q.ble a b = true))
instance (a b : Q) : Decidable (a < b) := inferInstanceAs (Decidable (Q.blt a b = true))

/-- Power of ten as an exact fraction. -/
def pow10 (n : ℕ) : Q := ⟨(10 : ℤ) ^ n, 1⟩

/-- Python `float(s)` on the numeric literals this pipeline feeds it:
optional sign, digits with at most one dot, optional exponent. Returns
`none` where CPython raises ValueError. Nonfinite literals (`inf`, `nan`)
are not modelled; they never occur in the texts treated here. -/
def pyFloat (s0 : Str) : Option Q :=
  let s := pyStrip s0
  let sgnRest : Bool × Str :=
    match s with
    | '-' :: rest => (true, rest)
    | '+' :: rest => (false, rest)
    | _ => (false, s)
  let s1 := sgnRest.2
  let ip := s1.takeWhile Char.isDigit
  let r1 := s1.dropWhile Char.isDigit
  let fpr : Str × Str :=
    match r1 with
    | '.' :: rest => (rest.takeWhile Char.isDigit, rest.dropWhile Char.isDigit)
    | _ => ([], r1)
  if ip = [] ∧ fpr.1 = [] then none
  else
    let mant : Q := Q.add (Q.ofNat (digitsToNat ip)) (Q.mk' (digitsToNat fpr.1) ((10 : ℕ) ^ fpr.1.length))
    let signed : Q := if sgnRest.1 then Q.neg mant else mant
    match fpr.2 with
    | [] => some signed
    | e :: rest =>
      if e = 'e' ∨ e = 'E' then
        let esr : Bool × Str :=
          match rest with
          | '-' :: rr => (true, rr)
          | '+' :: rr => (false, rr)
          | _ => (false, rest)
        let ed := esr.2.takeWhile Char.isDigit
        let r4 := esr.2.dropWhile Char.isDigit
        if ed = [] ∨ r4 ≠ [] then none
        else some (if esr.1 then Q.div signed (pow10 (digitsToNat ed))
          else Q.mul signed (pow10 (digitsToNat ed)))
      else none

/-- Truncation toward zero, Python `int(float)`. -/
def pyTrunc (q : Q) : ℤ :=
  if 0 ≤ q.num then ((q.num.toNat / q.den : ℕ) : ℤ)
  else -(((-q.num).toNat / q.den : ℕ) : ℤ)

/- ===================== JSON-shaped Python values ===================== -/

/-- Embedding of the Python values (None / bool / number / str / list /
dict) that flow through the pipeline. Dicts are association lists in
insertion order; CPython dicts have unique keys. -/
inductive JVal where
  | null
  | b (v : Bool)
  | num (q : Q)
  | s (v : Str)
  | arr (xs : List JVal)
  | obj (kvs : List (Str × JVal))
  deriving Repr

/-- KV is one dict entry of the embedding. -/
abbrev KV := Str × JVal

/-- Induction principle for `JVal` exposing the nested lists memberwise. -/
theorem JVal.myInd (P : JVal → Prop)
    (h0 : P .null) (h1 : ∀ v, P (.b v)) (h2 : ∀ q, P (.num q)) (h3 : ∀ v, P (.s v))
    (h4 : ∀ xs, (∀ x ∈ xs, P x) → P (.arr xs))
    (h5 : ∀ kvs, (∀ p ∈ kvs, P p.2) → P (.obj kvs)) :
    ∀ t, P t := by
  have key : ∀ n (u : JVal), sizeOf u < n → P u := by
    intro n
    induction n with
    | zero => intro u hu; omega
    | succ m IH =>
      intro u hu
      cases u with
      | null => exact h0
      | b v => exact h1 v
      | num q => exact h2 q
      | s v => exact h3 v
      | arr xs =>
        refine h4 xs (fun x hx => IH x ?_)
        have hlt := List.sizeOf_lt_of_mem hx
        have : sizeOf (JVal.arr xs) = 1 + sizeOf xs := by simp
        omega
      | obj kvs =>
        refine h5 kvs (fun p hp => IH p.2 ?_)
        have hlt := List.sizeOf_lt_of_mem hp
        have hp2 : sizeOf p.2 < sizeOf p := by
          obtain ⟨a, c⟩ := p; simp
        have : sizeOf (JVal.obj kvs) = 1 + sizeOf kvs := by simp
        omega
  exact fun t => key (sizeOf t + 1) t (by omega)

mutual

/-- Structural equality test on embedded values (CPython `==` on the
JSON-shaped fragment used here). -/
def jeq : JVal → JVal → Bool
  | .null, .null => true
  | .b a, .b c => a == c
  | .num a, .num c => a == c
  | .s a, .s c => a == c
  | .arr a, .arr c => jeqL a c
  | .obj a, .obj c => jeqKV a c
  | _, _ => false

/-- Equality test on lists of values. -/
def jeqL : List JVal → List JVal → Bool
  | [], [] => true
  | x :: xs, y :: ys => jeq x y && jeqL xs ys
  | _, _ => false

/-- Equality test on dict entry lists. -/
def jeqKV : List KV → List KV → Bool
  | [], [] => true
  | (k1, v1) :: xs, (k2, v2) :: ys => k1 == k2 && jeq v1 v2 && jeqKV xs ys
  | _, _ => false

end

theorem jeq_refl : ∀ t, jeq t t = true := by
  intro t
  induction t using JVal.myInd with
  | h0 => rfl
  | h1 v => simp [jeq]
  | h2 q => simp [jeq]
  | h3 v => simp [jeq]
  | h4 xs IH =>
    simp only [jeq]
    induction xs with
    | nil => rfl
    | cons x xs ihx =>
      simp only [jeqL, Bool.and_eq_true]
      exact ⟨IH x (by simp), ihx (fun y hy => IH y (by simp [hy]))⟩
  | h5 kvs IH =>
    simp only [jeq]
    induction kvs with
    | nil => rfl
    | cons p ps ihp =>
      obtain ⟨k, v⟩ := p
      simp only [jeqKV, Bool.and_eq_true]
      exact ⟨⟨by simp, IH ⟨k, v⟩ (by simp)⟩, ihp (fun q hq => IH q (by simp [hq]))⟩

theorem jval_ne_of_jeq_false {a c : JVal} (h : jeq a c = false) : a ≠ c := by
  intro he; rw [he, jeq_refl] at h; exact absurd h (by simp)

theorem eq_of_jeq : ∀ a b, jeq a b = true → a = b := by
  intro a
  induction a using JVal.myInd with
  | h0 =>
    intro b h
    cases b <;> first | rfl | simp [jeq] at h
  | h1 v =>
    intro b h
    cases b with
    | b c => simp [jeq] at h; rw [h]
    | null => simp [jeq] at h
    | num q => simp [jeq] at h
    | s w => simp [jeq] at h
    | arr ys => simp [jeq] at h
    | obj kvs => simp [jeq] at h
  | h2 q =>
    intro b h
    cases b with
    | num c => simp [jeq] at h; rw [h]
    | null => simp [jeq] at h
    | b c => simp [jeq] at h
    | s w => simp [jeq] at h
    | arr ys => simp [jeq] at h
    | obj kvs => simp [jeq] at h
  | h3 v =>
    intro b h
    cases b with
    | s c => simp [jeq] at h; rw [h]
    | null => simp [jeq] at h
    | b c => simp [jeq] at h
    | num q => simp [jeq] at h
    | arr ys => simp [jeq] at h
    | obj kvs => simp [jeq] at h
  | h4 xs IH =>
    intro b h
    cases b with
    | arr ys =>
      simp only [jeq] at h
      congr 1
      induction xs generalizing ys with
      | nil =>
        cases ys with
        | nil => rfl
        | cons y yy => simp [jeqL] at h
      | cons x xx ihx =>
        cases ys with
        | nil => simp [jeqL] at h
        | cons y yy =>
          simp only [jeqL, Bool.and_eq_true] at h
          rw [IH x (by simp) y h.1,
            ihx (fun z hz => IH z (by simp [hz])) yy h.2]
    | null => simp [jeq] at h
    | b c => simp [jeq] at h
    | num q => simp [jeq] at h
    | s w => simp [jeq] at h
    | obj kvs => simp [jeq] at h
  | h5 kvs IH =>
    intro b h
    cases b with
    | obj lvs =>
      simp only [jeq] at h
      congr 1
      induction kvs generalizing lvs with
      | nil =>
        cases lvs with
        | nil => rfl
        | cons y yy => simp [jeqKV] at h
      | cons x xx ihx =>
        cases lvs with
        | nil => simp [jeqKV] at h
        | cons y yy =>
          obtain ⟨k1, v1⟩ := x
          obtain ⟨k2, v2⟩ := y
          simp only [jeqKV, Bool.and_eq_true] at h
          have hk : k1 = k2 := by
            have := h.1.1
            simpa using this
          have hv : v1 = v2 := IH (k1, v1) (by simp) v2 h.1.2
          have ht : xx = yy := ihx (fun z hz => IH z (by simp [hz])) yy h.2
          rw [hk, hv, ht]
    | null => simp [jeq] at h
    | b c => simp [jeq] at h
    | num q => simp [jeq] at h
    | s w => simp [jeq] at h
    | arr ys => simp [jeq] at h

instance : DecidableEq JVal := fun a b =>
  if h : jeq a b = true then isTrue (eq_of_jeq a b h)
  else isFalse (fun he => h (he ▸ jeq_refl a))


instance : DecidableEq JVal := fun a b =>
  if h : jeq a b = true then isTrue (eq_of_jeq a b h)
  else isFalse (fun he => h (he ▸ jeq_refl a))

/-- Dict lookup with Python's `d.get(k)` default: `None` when absent. -/
def getD (kvs : List KV) (k : Str) : JVal :=
  match kvs with
  | [] => .null
  | (k', v) :: rest => if k' = k then v else getD rest k

/-- Dict lookup returning `none` when the key is absent (`k in d` plus
`d[k]`). -/
def lookupKV (kvs : List KV) (k : Str) : Option JVal :=
  match kvs with
  | [] => none
  | (k', v) :: rest => if k' = k then some v else lookupKV rest k

/-- View a value as a dict entry list; non-dicts give the empty dict, as
in the `d if isinstance(d, dict) else` idiom. -/
def asObjD : JVal → List KV
  | .obj kvs => kvs
  | _ => []

/-- Key membership test, Python `k in template`. -/
def hasKeyT (kvs : List KV) (k : Str) : Bool :=
  kvs.any (fun kv => kv.1 = k)

/-- Python dict assignment `base[k] = v`: replace in place when the key
exists, else append. -/
def setKey (kvs : List KV) (k : Str) (v : JVal) : List KV :=
  match kvs with
  | [] => [(k, v)]
  | (k', v') :: rest => if k' = k then (k, v) :: rest else (k', v') :: setKey rest k v

/-- CPython truthiness on the embedded values. -/
def truthy : JVal → Bool
  | .null => false
  | .b v => v
  | .num q => q.num != 0
  | .s v => !v.isEmpty
  | .arr xs => !xs.isEmpty
  | .obj kvs => !kvs.isEmpty

/-- Test for the values `None` and `""` (the emptiness test
`d not in (None, "")` of `_normalize_to_schema`). -/
def emptyScalar : JVal → Bool
  | .null => true
  | .s [] => true
  | _ => false

/-- Dict test, Python `isinstance(v, dict)`. -/
def isObj : JVal → Bool
  | .obj _ => true
  | _ => false

/-- List test, Python `isinstance(v, list)`. -/
def isArr : JVal → Bool
  | .arr _ => true
  | _ => false

/- ===================== UNIFIED_TENDER_SCHEMA ===================== -/

/-- The sample work item inside the schema's `works_list` template. -/
def schemaWorkItem : JVal := .obj [
  (str "name", .s []),
  (str "volume", .s []),
  (str "unit", .s []),
  (str "materials", .s []),
  (str "equipment", .s []),
  (str "location", .s []),
  (str "notes", .s [])]

/-- The sample goods item inside the schema's `items` template. -/
def schemaGoodsItem : JVal := .obj [
  (str "name", .s []),
  (str "description", .s []),
  (str "brand", .s []),
  (str "model", .s []),
  (str "certificates", .s []),
  (str "quantity", .s []),
  (str "unit", .s []),
  (str "requirements", .s [])]

/-- UNIFIED_TENDER_SCHEMA of ai_services.py: the canonical record shape. -/
def UNIFIED_TENDER_SCHEMA : JVal := .obj [
  (str "tender_id", .s []),
  (str "title", .s []),
  (str "description", .s []),
  (str "document_type", .s []),
  (str "purchase_type", .s []),
  (str "customer", .obj [
    (str "name", .s []),
    (str "inn", .s []),
    (str "kpp", .s []),
    (str "ogrn", .s []),
    (str "address", .s []),
    (str "contacts", .s [])]),
  (str "object", .obj [
    (str "name", .s []),
    (str "address", .s []),
    (str "category", .s []),
    (str "volume", .s []),
    (str "unit", .s [])]),
  (str "technical", .obj [
    (str "requirements", .s []),
    (str "conditions", .s []),
    (str "works", .obj [
      (str "works_list", .arr [schemaWorkItem])])]),
  (str "timeline", .obj [
    (str "start_date", .s []),
    (str "end_date", .s []),
    (str "duration_days", .s []),
    (str "delivery_schedule", .s [])]),
  (str "pricing", .obj [
    (str "currency", .s (str "RUB")),
    (str "price_estimate_min", .s []),
    (str "price_estimate_max", .s []),
    (str "sources", .s []),
    (str "calculation_comment", .s [])]),
  (str "goods", .obj [
    (str "items", .arr [schemaGoodsItem])]),
  (str "legal", .obj [
    (str "contract_conditions", .s []),
    (str "penalties", .s []),
    (str "guarantees", .s [])]),
  (str "analysis_meta", .obj [
    (str "user_city", .s []),
    (str "fallback_used", .b false),
    (str "fallback_reason", .s [])])]

/- ===================== _normalize_to_schema ===================== -/

mutual

/-- Inner `_fill(template, d)` of `_normalize_to_schema`: dict templates
recurse keywise and append the source's extra keys; list templates keep
the source value only when it is a list, else a copy of the template's
list; scalar templates keep the source value unless it is `None` or `""`. -/
def fill : JVal → JVal → JVal
  | .obj tkvs, d =>
      .obj (fillEntries tkvs (asObjD d) ++
        (asObjD d).filter (fun kv => !(hasKeyT tkvs kv.1)))
  | .arr xs, d => match d with | .arr ys => .arr ys | _ => .arr xs
  | t, d => if emptyScalar d then t else d

/-- Keywise pass of `_fill` over the template's entries. -/
def fillEntries : List KV → List KV → List KV
  | [], _ => []
  | (k, tv) :: rest, dk => (k, fill tv (getD dk k)) :: fillEntries rest dk

end

/-- Function `_normalize_to_schema(data)` of ai_services.py. -/
def normalize_to_schema (data : JVal) : JVal :=
  fill UNIFIED_TENDER_SCHEMA data

/- ===================== C1: schema completeness ===================== -/

/-- Relational statement of claim C1 for one template slot: a dict
template's key paths are all present in the output with the claimed slot
behaviour, extra keys pass through unmodified, a list slot takes the
source value exactly when it is a list, and a scalar slot takes the
source value exactly when it is non-empty. -/
inductive FillOk : JVal → JVal → JVal → Prop where
  | scalar (t d : JVal) (hobj : isObj t = false) (harr : isArr t = false) :
      FillOk t d (if emptyScalar d then t else d)
  | listKeep (xs : List JVal) (d : JVal) (h : isArr d = true) :
      FillOk (.arr xs) d d
  | listDefault (xs : List JVal) (d : JVal) (h : isArr d = false) :
      FillOk (.arr xs) d (.arr xs)
  | dict (tkvs okvs : List KV) (d : JVal)
      (hsome : ∀ k tv, lookupKV tkvs k = some tv → (lookupKV okvs k).isSome = true)
      (hpresent : ∀ k tv, lookupKV tkvs k = some tv →
        ∀ ov, lookupKV okvs k = some ov → FillOk tv (getD (asObjD d) k) ov)
      (hextra : ∀ k, lookupKV tkvs k = none →
        lookupKV okvs k = lookupKV (asObjD d) k) :
      FillOk (.obj tkvs) d (.obj okvs)

theorem lookupKV_fillEntries (tkvs dk : List KV) (k : Str) (tv : JVal)
    (h : lookupKV tkvs k = some tv) :
    lookupKV (fillEntries tkvs dk) k = some (fill tv (getD dk k)) := by
  induction tkvs with
  | nil => simp [lookupKV] at h
  | cons p rest IH =>
    obtain ⟨k', tv'⟩ := p
    by_cases hk : k' = k
    · subst hk
      simp [lookupKV] at h
      subst h
      simp [fillEntries, lookupKV]
    · simp [lookupKV, hk] at h
      simpa [fillEntries, lookupKV, hk] using IH h

theorem lookupKV_fillEntries_none (tkvs dk : List KV) (k : Str)
    (h : lookupKV tkvs k = none) :
    lookupKV (fillEntries tkvs dk) k = none := by
  induction tkvs with
  | nil => simp [fillEntries, lookupKV]
  | cons p rest IH =>
    obtain ⟨k', tv'⟩ := p
    by_cases hk : k' = k
    · simp [lookupKV, hk] at h
    · simp [lookupKV, hk] at h
      simpa [fillEntries, lookupKV, hk] using IH h

theorem lookupKV_append_right (xs ys : List KV) (k : Str)
    (h : lookupKV xs k = none) :
    lookupKV (xs ++ ys) k = lookupKV ys k := by
  induction xs with
  | nil => simp
  | cons p rest IH =>
    obtain ⟨k', v'⟩ := p
    by_cases hk : k' = k
    · simp [lookupKV, hk] at h
    · simp [lookupKV, hk] at h ⊢
      exact IH h

theorem lookupKV_append_left (xs ys : List KV) (k : Str) (v : JVal)
    (h : lookupKV xs k = some v) :
    lookupKV (xs ++ ys) k = some v := by
  induction xs with
  | nil => simp [lookupKV] at h
  | cons p rest IH =>
    obtain ⟨k', v'⟩ := p
    by_cases hk : k' = k
    · simp [lookupKV, hk] at h ⊢; exact h
    · simp [lookupKV, hk] at h ⊢; exact IH h

theorem hasKeyT_eq_isSome (xs : List KV) (k : Str) :
    hasKeyT xs k = (lookupKV xs k).isSome := by
  induction xs with
  | nil => rfl
  | cons p rest IH =>
    obtain ⟨k', v'⟩ := p
    by_cases hk : k' = k
    · simp [hasKeyT, lookupKV, hk]
    · simp only [hasKeyT, List.any_cons] at IH ⊢
      simp [lookupKV, hk, IH]

theorem lookupKV_filter_notkey (dk : List KV) (tkvs : List KV) (k : Str)
    (hk : hasKeyT tkvs k = false) :
    lookupKV (dk.filter (fun kv => !(hasKeyT tkvs kv.1))) k = lookupKV dk k := by
  induction dk with
  | nil => rfl
  | cons p rest IH =>
    obtain ⟨k', v'⟩ := p
    by_cases hkk : k' = k
    · subst hkk
      simp [List.filter_cons, hk, lookupKV]
    · by_cases hin : hasKeyT tkvs k' = true
      · simp [List.filter_cons, hin, lookupKV, hkk, IH]
      · simp only [Bool.not_eq_true] at hin
        simp [List.filter_cons, hin, lookupKV, hkk, IH]

theorem keys_fillEntries_hasKeyT (tkvs dk : List KV) (k : Str)
    (h : hasKeyT tkvs k = false) :
    lookupKV (fillEntries tkvs dk) k = none := by
  refine lookupKV_fillEntries_none tkvs dk k ?_
  rw [hasKeyT_eq_isSome] at h
  cases hx : lookupKV tkvs k with
  | none => rfl
  | some v => rw [hx] at h; simp at h

theorem lookupKV_mem (xs : List KV) (k : Str) (v : JVal)
    (h : lookupKV xs k = some v) : (k, v) ∈ xs := by
  induction xs with
  | nil => simp [lookupKV] at h
  | cons p rest IH =>
    obtain ⟨k', v'⟩ := p
    by_cases hk : k' = k
    · subst hk; simp [lookupKV] at h; subst h; exact List.mem_cons_self _ _
    · simp [lookupKV, hk] at h
      exact List.mem_cons_of_mem _ (IH h)

theorem fill_FillOk : ∀ t d, FillOk t d (fill t d) := by
  intro t
  induction t using JVal.myInd with
  | h0 => intro d; exact FillOk.scalar _ d rfl rfl
  | h1 v => intro d; exact FillOk.scalar _ d rfl rfl
  | h2 q => intro d; exact FillOk.scalar _ d rfl rfl
  | h3 v => intro d; exact FillOk.scalar _ d rfl rfl
  | h4 xs IH =>
    intro d
    cases d with
    | arr ys => exact FillOk.listKeep xs (.arr ys) rfl
    | null => exact FillOk.listDefault xs _ rfl
    | b v => exact FillOk.listDefault xs _ rfl
    | num q => exact FillOk.listDefault xs _ rfl
    | s v => exact FillOk.listDefault xs _ rfl
    | obj kvs => exact FillOk.listDefault xs _ rfl
  | h5 tkvs IH =>
    intro d
    rw [show fill (.obj tkvs) d = .obj (fillEntries tkvs (asObjD d) ++
        (asObjD d).filter (fun kv => !(hasKeyT tkvs kv.1))) from rfl]
    refine FillOk.dict tkvs _ d ?_ ?_ ?_
    · intro k tv hk
      rw [lookupKV_append_left _ _ k _ (lookupKV_fillEntries tkvs (asObjD d) k tv hk)]
      rfl
    · intro k tv hk ov hov
      rw [lookupKV_append_left _ _ k _ (lookupKV_fillEntries tkvs (asObjD d) k tv hk)] at hov
      have hov2 : ov = fill tv (getD (asObjD d) k) := by
        injection hov with h; exact h.symm
      subst hov2
      have hmem : (k, tv) ∈ tkvs := lookupKV_mem tkvs k tv hk
      exact IH (k, tv) hmem (getD (asObjD d) k)
    · intro k hk
      have hfk : hasKeyT tkvs k = false := by
        rw [hasKeyT_eq_isSome, hk]; rfl
      rw [lookupKV_append_right _ _ k (keys_fillEntries_hasKeyT tkvs (asObjD d) k hfk)]
      exact lookupKV_filter_notkey (asObjD d) tkvs k hfk

/-- C1. For every value `d`, `_normalize_to_schema d` satisfies the claimed
slot discipline against `UNIFIED_TENDER_SCHEMA`: every key path of the
template is present in the output (recursively, via the `FillOk.dict`
premise), a template scalar slot holds the source value when it is not
`None`/`""` and the template default otherwise, a template list slot holds
the source value exactly when that value is a list and a copy of the
template's list otherwise, and every key of `d` absent from the template
is passed through to the output unmodified. -/
theorem C1_normalize_schema_completeness (d : JVal) :
    FillOk UNIFIED_TENDER_SCHEMA d (normalize_to_schema d) :=
  fill_FillOk UNIFIED_TENDER_SCHEMA d

/- ===================== C4: idempotence ===================== -/

/-- Key distinctness of one dict level of a template. -/
def keysNodup : List KV → Bool
  | [] => true
  | (k, _) :: rest => !(hasKeyT rest k) && keysNodup rest

mutual

/-- Recursive key distinctness of every dict level of a template (holds
for `UNIFIED_TENDER_SCHEMA`, whose keys are distinct at each level). -/
def templateNodup : JVal → Bool
  | .obj kvs => keysNodup kvs && templateNodupKVs kvs
  | _ => true

/-- Pointwise recursion of `templateNodup` over the entries. -/
def templateNodupKVs : List KV → Bool
  | [] => true
  | (_, v) :: rest => templateNodup v && templateNodupKVs rest

end

theorem templateNodupKVs_forall (kvs : List KV) (h : templateNodupKVs kvs = true) :
    ∀ p ∈ kvs, templateNodup p.2 = true := by
  induction kvs with
  | nil => intro p hp; simp at hp
  | cons q rest IH =>
    obtain ⟨k, v⟩ := q
    simp only [templateNodupKVs, Bool.and_eq_true] at h
    intro p hp
    rcases List.mem_cons.mp hp with h1 | h2
    · subst h1; exact h.1
    · exact IH h.2 p h2

theorem getD_eq_lookupKV (xs : List KV) (k : Str) :
    getD xs k = (lookupKV xs k).getD JVal.null := by
  induction xs with
  | nil => rfl
  | cons p rest IH =>
    obtain ⟨k', v'⟩ := p
    by_cases hk : k' = k <;> simp [getD, lookupKV, hk, IH]

theorem hasKeyT_of_mem (xs : List KV) (k : Str) (v : JVal) (h : (k, v) ∈ xs) :
    hasKeyT xs k = true := by
  induction xs with
  | nil => simp at h
  | cons p rest IH =>
    rcases List.mem_cons.mp h with h1 | h2
    · subst h1; simp [hasKeyT]
    · obtain ⟨k', v'⟩ := p
      simp only [hasKeyT, List.any_cons, Bool.or_eq_true]
      exact Or.inr (IH h2)

theorem mem_lookupKV_nodup (xs : List KV) (k : Str) (v : JVal)
    (hn : keysNodup xs = true) (h : (k, v) ∈ xs) : lookupKV xs k = some v := by
  induction xs with
  | nil => simp at h
  | cons p rest IH =>
    obtain ⟨k', v'⟩ := p
    simp only [keysNodup, Bool.and_eq_true] at hn
    rcases List.mem_cons.mp h with h1 | h2
    · rw [Prod.mk.injEq] at h1
      obtain ⟨hk, hv⟩ := h1
      simp [lookupKV, hk.symm, hv]
    · by_cases hk : k' = k
      · subst hk
        exfalso
        rw [hasKeyT_of_mem rest k' v h2] at hn
        simp at hn
      · simp [lookupKV, hk]
        exact IH hn.2 h2

theorem fillEntries_keys_sub (tkvs dk : List KV) (p : KV)
    (h : p ∈ fillEntries tkvs dk) : hasKeyT tkvs p.1 = true := by
  induction tkvs with
  | nil => simp [fillEntries] at h
  | cons q rest IH =>
    obtain ⟨k, tv⟩ := q
    simp only [fillEntries] at h
    rcases List.mem_cons.mp h with h1 | h2
    · subst h1; simp [hasKeyT]
    · simp only [hasKeyT, List.any_cons, Bool.or_eq_true]
      exact Or.inr (IH h2)

theorem fillEntries_congr (tkvs dk1 dk2 : List KV)
    (h : ∀ p ∈ tkvs, fill p.2 (getD dk1 p.1) = fill p.2 (getD dk2 p.1)) :
    fillEntries tkvs dk1 = fillEntries tkvs dk2 := by
  induction tkvs with
  | nil => rfl
  | cons q rest IH =>
    obtain ⟨k, tv⟩ := q
    simp only [fillEntries]
    rw [h (k, tv) (List.mem_cons_self _ _), IH (fun p hp => h p (List.mem_cons_of_mem _ hp))]

theorem filter_fillEntries_nil (tkvs dk : List KV) :
    (fillEntries tkvs dk).filter (fun kv => !(hasKeyT tkvs kv.1)) = [] := by
  rw [List.filter_eq_nil_iff]
  intro p hp
  rw [fillEntries_keys_sub tkvs dk p hp]
  simp

theorem fill_scalar_eq (t : JVal) (hobj : isObj t = false) (harr : isArr t = false)
    (e : JVal) : fill t e = if emptyScalar e then t else e := by
  cases t <;> simp_all [fill, isObj, isArr]

theorem fill_scalar_idem (t : JVal) (hobj : isObj t = false) (harr : isArr t = false)
    (d : JVal) : fill t (fill t d) = fill t d := by
  rw [fill_scalar_eq t hobj harr d]
  by_cases h : emptyScalar d = true
  · rw [if_pos h, fill_scalar_eq t hobj harr t]
    by_cases h2 : emptyScalar t = true
    · rw [if_pos h2]
    · rw [if_neg h2]
  · rw [if_neg h, fill_scalar_eq t hobj harr d, if_neg h]

theorem fill_idem : ∀ t, templateNodup t = true → ∀ d, fill t (fill t d) = fill t d := by
  intro t
  induction t using JVal.myInd with
  | h0 => intro _ d; exact fill_scalar_idem .null rfl rfl d
  | h1 v => intro _ d; exact fill_scalar_idem (.b v) rfl rfl d
  | h2 q => intro _ d; exact fill_scalar_idem (.num q) rfl rfl d
  | h3 v => intro _ d; exact fill_scalar_idem (.s v) rfl rfl d
  | h4 xs IH =>
    intro _ d
    cases d <;> rfl
  | h5 tkvs IH =>
    intro ht d
    simp only [templateNodup, Bool.and_eq_true] at ht
    have hvals := templateNodupKVs_forall tkvs ht.2
    rw [show fill (.obj tkvs) d = .obj (fillEntries tkvs (asObjD d) ++
        (asObjD d).filter (fun kv => !(hasKeyT tkvs kv.1))) from rfl]
    rw [show ∀ L : List KV, fill (.obj tkvs) (.obj L) = .obj (fillEntries tkvs L ++
        L.filter (fun kv => !(hasKeyT tkvs kv.1))) from fun L => rfl]
    have hfilter : (fillEntries tkvs (asObjD d) ++
        (asObjD d).filter (fun kv => !(hasKeyT tkvs kv.1))).filter
          (fun kv => !(hasKeyT tkvs kv.1)) =
        (asObjD d).filter (fun kv => !(hasKeyT tkvs kv.1)) := by
      rw [List.filter_append, filter_fillEntries_nil, List.nil_append,
        List.filter_filter]
      simp
    have hentries : fillEntries tkvs (fillEntries tkvs (asObjD d) ++
        (asObjD d).filter (fun kv => !(hasKeyT tkvs kv.1))) =
        fillEntries tkvs (asObjD d) := by
      apply fillEntries_congr
      intro p hp
      obtain ⟨k, tv⟩ := p
      have hlk : lookupKV tkvs k = some tv := mem_lookupKV_nodup tkvs k tv ht.1 hp
      have h1 : lookupKV (fillEntries tkvs (asObjD d)) k =
          some (fill tv (getD (asObjD d) k)) :=
        lookupKV_fillEntries tkvs (asObjD d) k tv hlk
      have h2 : lookupKV (fillEntries tkvs (asObjD d) ++
          (asObjD d).filter (fun kv => !(hasKeyT tkvs kv.1))) k =
          some (fill tv (getD (asObjD d) k)) :=
        lookupKV_append_left _ _ k _ h1
      rw [getD_eq_lookupKV, h2]
      simp only [Option.getD_some]
      exact IH (k, tv) hp (hvals (k, tv) hp) (getD (asObjD d) k)
    rw [hfilter, hentries]

/-- C4. Normalization to the schema is idempotent: applying
`_normalize_to_schema` twice equals applying it once, for every value. -/
theorem C4_normalize_idempotent (x : JVal) :
    normalize_to_schema (normalize_to_schema x) = normalize_to_schema x :=
  fill_idem UNIFIED_TENDER_SCHEMA (by rfl) x

/- ===================== _merge_dicts / _aggregate_tender_dicts ===================== -/

mutual

/-- Function `_merge_dicts(base, extra)` of ai_services.py: when `extra`
is not a dict the base is returned unchanged, else its entries are folded
into the base in iteration order. -/
def merge_dicts : List KV → JVal → List KV
  | base, .obj ekvs => mergeEntries base ekvs
  | base, _ => base

/-- Iteration `for k, v in extra.items()` of `_merge_dicts`. -/
def mergeEntries : List KV → List KV → List KV
  | base, [] => base
  | base, (k, v) :: rest => mergeEntries (mergeStep base k v) rest

/-- Body of the loop of `_merge_dicts` for one `(k, v)` entry: dicts are
merged recursively (a falsy or non-dict base slot restarts from an empty
dict), lists are concatenated onto a base list (else assigned), and a
scalar is assigned only when it is neither `""` nor `None`. -/
def mergeStep : List KV → Str → JVal → List KV
  | base, k, .obj vkvs =>
      let node0 := getD base k
      let node := if truthy node0 then node0 else .obj []
      setKey base k (.obj (mergeEntries (asObjD node) vkvs))
  | base, k, .arr vs =>
      (match getD base k with
       | .arr bs => setKey base k (.arr (bs ++ vs))
       | _ => setKey base k (.arr vs))
  | base, _, .null => base
  | base, _, .s [] => base
  | base, k, v => setKey base k v

end

/-- Function `_aggregate_tender_dicts(dicts)` of ai_services.py: drop
entries that are not non-empty dicts, return a schema copy when nothing
remains, else fold `_merge_dicts` over a schema copy and normalize. -/
def aggregate_tender_dicts (dicts : List JVal) : JVal :=
  if (dicts.filter (fun d => isObj d && truthy d)).isEmpty then UNIFIED_TENDER_SCHEMA
  else normalize_to_schema (.obj ((dicts.filter (fun d => isObj d && truthy d)).foldl
    (fun agg d => merge_dicts agg d) (asObjD UNIFIED_TENDER_SCHEMA)))

/- ===================== C3 ===================== -/

theorem getD_setKey_ne (base : List KV) (k' k : Str) (v : JVal) (h : k' ≠ k) :
    getD (setKey base k' v) k = getD base k := by
  induction base with
  | nil => simp [setKey, getD, h]
  | cons p rest IH =>
    obtain ⟨k0, v0⟩ := p
    by_cases h0 : k0 = k'
    · subst h0
      simp only [setKey, if_pos rfl]
      simp [getD, h]
    · simp only [setKey, if_neg h0]
      by_cases h1 : k0 = k
      · simp [getD, h1]
      · simp [getD, h1, IH]

theorem getD_setKey_eq (base : List KV) (k : Str) (v : JVal) :
    getD (setKey base k v) k = v := by
  induction base with
  | nil => simp [setKey, getD]
  | cons p rest IH =>
    obtain ⟨k0, v0⟩ := p
    by_cases h0 : k0 = k <;> simp [setKey, getD, h0, IH]

theorem getD_mergeStep_ne (base : List KV) (k' k : Str) (v : JVal) (h : k' ≠ k) :
    getD (mergeStep base k' v) k = getD base k := by
  cases v with
  | null => rfl
  | obj vkvs => simp only [mergeStep]; exact getD_setKey_ne _ k' k _ h
  | arr vs =>
    simp only [mergeStep]
    cases getD base k' <;> simp <;> exact getD_setKey_ne _ k' k _ h
  | b v => simp only [mergeStep]; exact getD_setKey_ne _ k' k _ h
  | num q => simp only [mergeStep]; exact getD_setKey_ne _ k' k _ h
  | s cs =>
    cases cs with
    | nil => rfl
    | cons c cc => simp only [mergeStep]; exact getD_setKey_ne _ k' k _ h

theorem getD_mergeEntries_absent (ekvs : List KV) :
    ∀ (base : List KV) (k : Str), hasKeyT ekvs k = false →
      getD (mergeEntries base ekvs) k = getD base k := by
  induction ekvs with
  | nil => intro base k _; rfl
  | cons p rest IH =>
    intro base k h
    obtain ⟨k', v'⟩ := p
    have h' : (decide (k' = k) || hasKeyT rest k) = false := h
    have hne : k' ≠ k := by
      intro hc; subst hc; simp at h'
    have hrest : hasKeyT rest k = false := by
      cases hx : hasKeyT rest k with
      | false => rfl
      | true => rw [hx] at h'; simp at h'
    simp only [mergeEntries]
    rw [IH _ k hrest, getD_mergeStep_ne base k' k v' hne]

theorem getD_mergeEntries_scalar (ekvs : List KV) :
    ∀ (base : List KV) (k : Str) (v : JVal), keysNodup ekvs = true →
      lookupKV ekvs k = some v → isObj v = false → isArr v = false →
      getD (mergeEntries base ekvs) k = (if emptyScalar v then getD base k else v) := by
  induction ekvs with
  | nil => intro base k v _ hl _ _; simp [lookupKV] at hl
  | cons p rest IH =>
    intro base k v hn hl hobj harr
    obtain ⟨k', v'⟩ := p
    have hn' : (!(hasKeyT rest k') && keysNodup rest) = true := hn
    rw [Bool.and_eq_true] at hn'
    by_cases hk : k' = k
    · subst hk
      have hv : v' = v := by
        have h2 : some v' = some v := by simpa [lookupKV] using hl
        injection h2
      subst hv
      simp only [mergeEntries]
      have hrest : hasKeyT rest k' = false := by
        rcases hn' with ⟨ha, _⟩
        simpa using ha
      rw [getD_mergeEntries_absent rest _ k' hrest]
      cases v' with
      | null => simp [mergeStep, emptyScalar]
      | b vb => simp [mergeStep, emptyScalar, getD_setKey_eq]
      | num q => simp [mergeStep, emptyScalar, getD_setKey_eq]
      | s cs =>
        cases cs with
        | nil => simp [mergeStep, emptyScalar]
        | cons c cc => simp [mergeStep, emptyScalar, getD_setKey_eq]
      | arr xs => simp [isArr] at harr
      | obj kvs => simp [isObj] at hobj
    · have hl' : lookupKV rest k = some v := by simpa [lookupKV, hk] using hl
      simp only [mergeEntries]
      rw [IH (mergeStep base k' v') k v hn'.2 hl' hobj harr,
        getD_mergeStep_ne base k' k v' hk]

/-- Concrete dict refuting the first part of C3: an extra (non-template)
key whose dict value holds only an empty-string entry. -/
def c3A : JVal := .obj [(str "x", .obj [(str "y", .s [])])]

/-- C3 counterexample. The claim "aggregating [A, \x7b\x7d] yields exactly
normalize(A)" fails at `c3A`: the merge step drops the empty-string entry
`y` inside the extra dict `x` (empty scalars never overwrite), so
aggregation yields `x ↦ \x7b\x7d`, while `_normalize_to_schema` copies the
extra key verbatim, yielding `x ↦ \x7b y ↦ "" \x7d`. -/
theorem C3_counterexample :
    aggregate_tender_dicts [c3A, .obj []] ≠ normalize_to_schema c3A := by
  intro h
  have h2 : getD (asObjD (aggregate_tender_dicts [c3A, .obj []])) (str "x")
      = getD (asObjD (normalize_to_schema c3A)) (str "x") := by rw [h]
  have h3 : JVal.obj [] = JVal.obj [(str "y", .s [])] := h2
  exact absurd h3 (jval_ne_of_jeq_false rfl)

/-- C3 (amended). Aggregating `[A, empty-dict]` equals aggregating `[A]`
(the empty dict is discarded by the pre-filter, so it contributes
nothing; the result is `normalize(merge(schema_copy, A))`, which differs
from `normalize(A)` when `A` supplies a list at a template list slot or
empty scalars inside extra dicts); and `_merge_dicts` never removes a
value at a key absent from the later source, while a non-dict, non-list
value from the later source overwrites the earlier value exactly when it
is neither `None` nor `""` — empty values never clobber set values. -/
theorem C3_merge_monotonicity :
    (∀ A : JVal, aggregate_tender_dicts [A, .obj []] = aggregate_tender_dicts [A]) ∧
    (∀ (base ekvs : List KV) (k : Str), hasKeyT ekvs k = false →
      getD (merge_dicts base (.obj ekvs)) k = getD base k) ∧
    (∀ (base ekvs : List KV) (k : Str) (v : JVal), keysNodup ekvs = true →
      lookupKV ekvs k = some v → isObj v = false → isArr v = false →
      getD (merge_dicts base (.obj ekvs)) k =
        (if emptyScalar v then getD base k else v)) := by
  refine ⟨?_, ?_, ?_⟩
  · intro A
    have hf : [A, JVal.obj []].filter (fun d => isObj d && truthy d)
        = [A].filter (fun d => isObj d && truthy d) := by
      rw [show [A, JVal.obj []] = [A] ++ [JVal.obj []] from rfl, List.filter_append]
      rw [show [JVal.obj []].filter (fun d => isObj d && truthy d) = [] from rfl,
        List.append_nil]
    simp only [aggregate_tender_dicts, hf]
  · intro base ekvs k h
    exact getD_mergeEntries_absent ekvs base k h
  · intro base ekvs k v hn hl hobj harr
    exact getD_mergeEntries_scalar ekvs base k v hn hl hobj harr

/-- Witness for C3's amended theorem at concrete inputs: a key absent
from the later source survives the merge, and an empty string from the
later source does not clobber the earlier value. -/
theorem C3_merge_monotonicity_witness :
    (hasKeyT [(str "u", JVal.s (str "y"))] (str "t") = false ∧
      getD (merge_dicts [(str "t", JVal.s (str "x"))]
          (.obj [(str "u", JVal.s (str "y"))])) (str "t")
        = getD [(str "t", JVal.s (str "x"))] (str "t")) ∧
    (keysNodup [(str "t", JVal.s [])] = true ∧
      getD (merge_dicts [(str "t", JVal.s (str "x"))]
          (.obj [(str "t", JVal.s [])])) (str "t")
        = (if emptyScalar (JVal.s []) then
            getD [(str "t", JVal.s (str "x"))] (str "t") else JVal.s [])) :=
  ⟨⟨rfl, C3_merge_monotonicity.2.1 _ _ _ rfl⟩,
   ⟨rfl, C3_merge_monotonicity.2.2 _ _ _ _ rfl rfl rfl rfl⟩⟩

/- ===================== _split_text (Chunker) ===================== -/

/-- Loop of `_split_text`: from `start`, emit `text[start : start+size]`,
stop when the window reached the end, else continue from `end - overlap`.
The fuel argument only bounds the iteration count; `s.length` steps
suffice whenever `overlap < size`, because `start` strictly increases. -/
def splitGo (s : Str) (size ov : Nat) : Nat → Nat → List Str
  | 0, _ => []
  | fuel+1, start =>
      if min (start + size) s.length = s.length then
        [(s.drop start).take (min (start + size) s.length - start)]
      else
        (s.drop start).take (min (start + size) s.length - start) ::
          splitGo s size ov fuel (min (start + size) s.length - ov)

/-- Function `_split_text(text, chunk_size, overlap)` of ai_services.py:
strip, return `[]` on blank input, the whole text when it fits in one
chunk, else the sliding-window chunks. -/
def split_text (text : Str) (size ov : Nat) : List Str :=
  if (pyStrip text).isEmpty then []
  else if (pyStrip text).length ≤ size then [pyStrip text]
  else splitGo (pyStrip text) size ov (pyStrip text).length 0

/-- Concatenation of chunks with the `ov`-character overlap of each
successor removed (the reconstruction operator of claim C8). -/
def reconChunks (ov : Nat) (cs : List Str) : Str :=
  match cs with
  | [] => []
  | c :: rest => c ++ (rest.map (List.drop ov)).flatten

theorem splitGo_spec (s : Str) (size ov : Nat) (hso : ov < size) :
    ∀ fuel start, start < s.length → s.length - start ≤ fuel → start + ov < s.length →
      ∃ c rest, splitGo s size ov fuel start = c :: rest ∧
        c.length = min size (s.length - start) ∧
        (∀ x ∈ splitGo s size ov fuel start, x ≠ [] ∧ x.length ≤ size) ∧
        c ++ (rest.map (List.drop ov)).flatten = s.drop start ∧
        ∃ lc, (splitGo s size ov fuel start).getLast? = some lc ∧ List.IsSuffix lc s := by
  intro fuel
  induction fuel with
  | zero => intro start h1 h2 _; omega
  | succ m IH =>
    intro start hstart hfuel hov
    by_cases hend : min (start + size) s.length = s.length
    · have hlen : ((s.drop start).take (min (start + size) s.length - start)).length
          = min size (s.length - start) := by
        rw [List.length_take, List.length_drop]
        omega
      have htake : (s.drop start).take (min (start + size) s.length - start)
          = s.drop start := by
        have : (s.drop start).length ≤ min (start + size) s.length - start := by
          rw [List.length_drop]; omega
        exact List.take_of_length_le this
      refine ⟨s.drop start, [], ?_, ?_, ?_, ?_, ?_⟩
      · simp only [splitGo, if_pos hend, htake]
      · rw [List.length_drop]; omega
      · intro x hx
        simp only [splitGo, if_pos hend, htake, List.mem_singleton] at hx
        subst hx
        constructor
        · intro hnil
          have := congrArg List.length hnil
          rw [List.length_drop] at this
          simp at this
          omega
        · rw [List.length_drop]; omega
      · simp
      · refine ⟨s.drop start, ?_, List.drop_suffix _ _⟩
        simp only [splitGo, if_pos hend, htake]
        rfl
    · have he : min (start + size) s.length = start + size := by omega
      have hlt : start + size < s.length := by omega
      have hend2 : ¬(start + size = s.length) := by omega
      have hnext : start + size - ov + ov < s.length := by omega
      have hnextlt : start + size - ov < s.length := by omega
      have hnextfuel : s.length - (start + size - ov) ≤ m := by omega
      obtain ⟨c', rest', heq, hclen, hall, hrecon, lc, hlast, hsuf⟩ :=
        IH (start + size - ov) hnextlt hnextfuel hnext
      have hchunk : ((s.drop start).take (min (start + size) s.length - start)).length
          = size := by
        rw [List.length_take, List.length_drop]
        omega
      have hovc : ov ≤ c'.length := by
        rw [hclen]
        omega
      refine ⟨(s.drop start).take (min (start + size) s.length - start),
        splitGo s size ov m (start + size - ov), ?_, ?_, ?_, ?_, ?_⟩
      · simp only [splitGo, he, if_neg hend2]
      · rw [hchunk]; omega
      · intro x hx
        simp only [splitGo, he, if_neg hend2, List.mem_cons] at hx
        have hcl : (List.take (start + size - start) (List.drop start s)).length = size := by
          rw [List.length_take, List.length_drop]; omega
        rcases hx with hx | hx
        · subst hx
          constructor
          · intro hnil
            have := congrArg List.length hnil
            rw [hcl] at this
            simp at this
            omega
          · rw [hcl]
        · exact hall x hx
      · rw [heq]
        have hjoin : ((c' :: rest').map (List.drop ov)).flatten
            = s.drop (start + size) := by
          have hdropped : List.drop ov (c' ++ (rest'.map (List.drop ov)).flatten)
              = List.drop ov c' ++ (rest'.map (List.drop ov)).flatten :=
            List.drop_append_of_le_length hovc
          have : List.drop ov (s.drop (start + size - ov)) = s.drop (start + size) := by
            rw [List.drop_drop]
            congr 1
            omega
          calc ((c' :: rest').map (List.drop ov)).flatten
              = List.drop ov c' ++ (rest'.map (List.drop ov)).flatten := by simp
            _ = List.drop ov (c' ++ (rest'.map (List.drop ov)).flatten) := hdropped.symm
            _ = List.drop ov (s.drop (start + size - ov)) := by rw [hrecon]
            _ = s.drop (start + size) := this
        rw [hjoin]
        have : (s.drop start).drop (min (start + size) s.length - start)
            = s.drop (start + size) := by
          rw [List.drop_drop]
          congr 1
          omega
        rw [← this, List.take_append_drop]
      · refine ⟨lc, ?_, hsuf⟩
        simp only [splitGo, he, if_neg hend2]
        rw [heq]
        rw [heq] at hlast
        rw [List.getLast?_cons_cons]
        exact hlast

/-- C8. For `_split_text` with `overlap < chunk_size` and `0 < overlap`:
blank input yields `[]`; input fitting in one chunk yields exactly the
trimmed input; otherwise no chunk is empty or longer than `chunk_size`,
concatenating the chunks with each successor's `overlap`-character head
removed reconstructs the (trimmed) text, and the final chunk is a suffix
of the text, ending exactly at its end. -/
theorem C8_split_text_chunker (text : Str) (size ov : Nat)
    (h1 : ov < size) (h2 : 0 < ov) :
    (pyStrip text = [] → split_text text size ov = []) ∧
    (pyStrip text ≠ [] → (pyStrip text).length ≤ size →
      split_text text size ov = [pyStrip text]) ∧
    (size < (pyStrip text).length →
      split_text text size ov ≠ [] ∧
      (∀ c ∈ split_text text size ov, c ≠ [] ∧ c.length ≤ size) ∧
      reconChunks ov (split_text text size ov) = pyStrip text ∧
      ∃ lc, (split_text text size ov).getLast? = some lc ∧
        List.IsSuffix lc (pyStrip text)) := by
  refine ⟨?_, ?_, ?_⟩
  · intro h
    simp [split_text, h]
  · intro hne hle
    have hh : ¬((pyStrip text).isEmpty = true) := by
      simpa [List.isEmpty_iff] using hne
    simp [split_text, hh, hle]
  · intro hgt
    have hne : ¬((pyStrip text).isEmpty = true) := by
      intro hc
      rw [List.isEmpty_iff] at hc
      rw [hc] at hgt
      simp at hgt
    have hnle : ¬((pyStrip text).length ≤ size) := by omega
    obtain ⟨c, rest, heq, hclen, hall, hrecon, lc, hlast, hsuf⟩ :=
      splitGo_spec (pyStrip text) size ov h1 (pyStrip text).length 0
        (by omega) (by omega) (by omega)
    have hst : split_text text size ov
        = splitGo (pyStrip text) size ov (pyStrip text).length 0 := by
      simp [split_text, hne, hnle]
    refine ⟨?_, ?_, ?_, ?_⟩
    · rw [hst, heq]; simp
    · rw [hst]; exact hall
    · rw [hst, heq]
      simp only [reconChunks]
      simpa using hrecon
    · rw [hst]; exact ⟨lc, hlast, hsuf⟩

/-- Witness for C8 at chunk size 3, overlap 1, on the six-character text
"abcdef" (two windows plus a final one reaching the end). -/
theorem C8_split_text_chunker_witness :
    ((1 : Nat) < 3 ∧ (0 : Nat) < 1 ∧ 3 < (pyStrip (str "abcdef")).length) ∧
    reconChunks 1 (split_text (str "abcdef") 3 1) = pyStrip (str "abcdef") :=
  ⟨⟨by decide, by decide, by decide⟩,
    ((C8_split_text_chunker (str "abcdef") 3 1 (by decide) (by decide)).2.2
      (by decide)).2.2.1⟩

/- ===================== search_services: PriceInfo and json.loads ===================== -/

/-- Sanity ceiling MAX_REASONABLE_UNIT_PRICE of search_services.py. -/
def MAX_REASONABLE_UNIT_PRICE : Q := 10000000

/-- Dataclass `PriceInfo` of search_services.py. -/
structure PriceInfo where
  ok : Bool
  source : Str
  price_min : Option Q
  price_max : Option Q
  unit : Str
  currency : Str
  confidence : Q
  comment : Str
  deriving Repr, DecidableEq

/-- Exceptions the embedded code can raise. -/
inductive PyErr where
  | attributeError
  deriving Repr, DecidableEq

/-- Left brace character, written by code point. -/
def lbrace : Char := Char.ofNat 123

/-- Right brace character, written by code point. -/
def rbrace : Char := Char.ofNat 125

/-- Apostrophe character, written by code point. -/
def apos : Char := Char.ofNat 39

/-- JSON whitespace accepted between tokens by `json.loads`. -/
def jsonWs (c : Char) : Bool := c = ' ' || c = '\t' || c = '\n' || c = '\r'

/-- Skip JSON whitespace. -/
def skipWs (s : Str) : Str := s.dropWhile jsonWs

/-- Hexadecimal digit value. -/
def hexVal (c : Char) : Option Nat :=
  if '0' ≤ c ∧ c ≤ '9' then some (c.toNat - 48)
  else if 'a' ≤ c ∧ c ≤ 'f' then some (c.toNat - 87)
  else if 'A' ≤ c ∧ c ≤ 'F' then some (c.toNat - 55)
  else none

/-- JSON string body parser (after the opening quote): returns the decoded
text and the remainder after the closing quote. Strict like `json.loads`:
raw control characters and unknown escapes are rejected. Surrogate pairs
in `\u` escapes are not modelled (they do not occur here). -/
def parseJStringGo : Nat → Str → Option (Str × Str)
  | 0, _ => none
  | _ + 1, [] => none
  | fuel + 1, c :: rest =>
    if c = '"' then some ([], rest)
    else if c = '\\' then
      match rest with
      | [] => none
      | e :: r2 =>
        let dec : Option (Char × Str) :=
          if e = '"' then some ('"', r2)
          else if e = '\\' then some ('\\', r2)
          else if e = '/' then some ('/', r2)
          else if e = 'b' then some (Char.ofNat 8, r2)
          else if e = 'f' then some (Char.ofNat 12, r2)
          else if e = 'n' then some ('\n', r2)
          else if e = 'r' then some ('\r', r2)
          else if e = 't' then some ('\t', r2)
          else if e = 'u' then
            match r2 with
            | h1 :: h2 :: h3 :: h4 :: r3 =>
              match hexVal h1, hexVal h2, hexVal h3, hexVal h4 with
              | some a, some b2, some c2, some d2 =>
                some (Char.ofNat (((a * 16 + b2) * 16 + c2) * 16 + d2), r3)
              | _, _, _, _ => none
            | _ => none
          else none
        match dec with
        | some (ch, r3) => (parseJStringGo fuel r3).map (fun p => (ch :: p.1, p.2))
        | none => none
    else if c.toNat < 32 then none
    else (parseJStringGo fuel rest).map (fun p => (c :: p.1, p.2))

/-- JSON number parser, following the `json` module's number grammar
(`-? (0 | [1-9][0-9]*) (. digits)? ([eE][+-]? digits)?`), returning the
exact rational value and the remainder. -/
def parseJNumber (s : Str) : Option (Q × Str) :=
  let signAndRest : Bool × Str := match s with | '-' :: r => (true, r) | _ => (false, s)
  match signAndRest.2 with
  | [] => none
  | c :: _ =>
    if ¬c.isDigit then none
    else
      let s1 := signAndRest.2
      let ipr : Str × Str :=
        if c = '0' then ([c], s1.tail)
        else (s1.takeWhile Char.isDigit, s1.dropWhile Char.isDigit)
      let fpr : Str × Str :=
        match ipr.2 with
        | '.' :: fr => (fr.takeWhile Char.isDigit, fr.dropWhile Char.isDigit)
        | _ => ([], ipr.2)
      if (match ipr.2 with | '.' :: _ => fpr.1.isEmpty | _ => false) then none
      else
        let expr : ℤ × Str :=
          match fpr.2 with
          | e :: er =>
            if e = 'e' ∨ e = 'E' then
              let esr : Bool × Str :=
                match er with
                | '-' :: x => (true, x)
                | '+' :: x => (false, x)
                | _ => (false, er)
              let ed := esr.2.takeWhile Char.isDigit
              if ed.isEmpty then ((0 : ℤ), fpr.2)
              else ((if esr.1 then -(digitsToNat ed : ℤ) else (digitsToNat ed : ℤ)),
                esr.2.dropWhile Char.isDigit)
            else ((0 : ℤ), fpr.2)
          | [] => ((0 : ℤ), fpr.2)
        let mant : Q := Q.add (Q.ofNat (digitsToNat ipr.1))
          (Q.mk' (digitsToNat fpr.1) ((10 : ℕ) ^ fpr.1.length))
        let signed : Q := if signAndRest.1 then Q.neg mant else mant
        let scaled : Q :=
          if 0 ≤ expr.1 then Q.mul signed (pow10 expr.1.toNat)
          else Q.div signed (pow10 (-expr.1).toNat)
        some (scaled, expr.2)

mutual

/-- JSON value parser (fueled; `length + 1` fuel always suffices since
every nesting step consumes input). -/
def parseJValue : Nat → Str → Option (JVal × Str)
  | 0, _ => none
  | fuel + 1, s =>
    match skipWs s with
    | [] => none
    | c :: rest =>
      if c = lbrace then
        match skipWs rest with
        | c2 :: r2 =>
          if c2 = rbrace then some (.obj [], r2)
          else parseJMembers fuel (c2 :: r2) []
        | [] => none
      else if c = '[' then
        match skipWs rest with
        | c2 :: r2 => if c2 = ']' then some (.arr [], r2) else parseJItems fuel (c2 :: r2) []
        | [] => none
      else if c = '"' then
        (parseJStringGo (rest.length + 1) rest).map (fun p => (JVal.s p.1, p.2))
      else if strStarts (c :: rest) (str "true") then some (.b true, (c :: rest).drop 4)
      else if strStarts (c :: rest) (str "false") then some (.b false, (c :: rest).drop 5)
      else if strStarts (c :: rest) (str "null") then some (.null, (c :: rest).drop 4)
      else (parseJNumber (c :: rest)).map (fun p => (JVal.num p.1, p.2))

/-- JSON object members parser; duplicate keys overwrite (dict semantics). -/
def parseJMembers : Nat → Str → List KV → Option (JVal × Str)
  | 0, _, _ => none
  | fuel + 1, s, acc =>
    match s with
    | '"' :: r =>
      (match parseJStringGo (r.length + 1) r with
       | some (key, r2) =>
         (match skipWs r2 with
          | ':' :: r3 =>
            (match parseJValue fuel r3 with
             | some (v, r4) =>
               (match skipWs r4 with
                | ',' :: r5 => parseJMembers fuel (skipWs r5) (setKey acc key v)
                | cb :: r5 =>
                  if cb = rbrace then some (.obj (setKey acc key v), r5) else none
                | [] => none)
             | none => none)
          | _ => none)
       | none => none)
    | _ => none

/-- JSON array items parser. -/
def parseJItems : Nat → Str → List JVal → Option (JVal × Str)
  | 0, _, _ => none
  | fuel + 1, s, acc =>
    match parseJValue fuel s with
    | some (v, r) =>
      (match skipWs r with
       | ',' :: r2 => parseJItems fuel (skipWs r2) (acc ++ [v])
       | cb :: r2 => if cb = ']' then some (.arr (acc ++ [v]), r2) else none
       | [] => none)
    | none => none

end

/-- Python `json.loads`: one JSON value, nothing but whitespace after it. -/
def json_loads (s : Str) : Option JVal :=
  match parseJValue (s.length + 1) s with
  | some (v, rest) => if (skipWs rest).isEmpty then some v else none
  | none => none

/- ===================== _parse_llm_price ===================== -/

/-- Test whether `suf` is a trailing segment of `s` (Python `endswith`). -/
def strEnds (s suf : Str) : Bool := strStarts s.reverse suf.reverse

/-- Removal of a leading code fence, `re.sub("^``` (json)? ws*", "", text)`
with IGNORECASE (backtick fence spelled here in words): drop a leading
"```", an optional case-insensitive "json", and following whitespace. -/
def stripFenceStart (s : Str) : Str :=
  match s with
  | '\x60' :: '\x60' :: '\x60' :: r =>
    let r2 := if pyLower (r.take 4) = str "json" then r.drop 4 else r
    r2.dropWhile pyIsSpace
  | _ => s

/-- Removal of a trailing code fence, `re.sub("fence$", "", text)`: the
regex anchor `$` matches at the end or just before a final newline. -/
def stripFenceEnd (s : Str) : Str :=
  if strEnds s (str "\x60\x60\x60") then s.take (s.length - 3)
  else if strEnds s [quoteNl] ∧ strEnds (s.take (s.length - 1)) (str "\x60\x60\x60") then
    (s.take (s.length - 4)) ++ [quoteNl]
  else s
where
  /-- Newline character used by the `$` anchor case. -/
  quoteNl : Char := '\n'

/-- Cleaned response text of `_parse_llm_price`: strip, remove the leading
fence, remove the trailing fence, strip again. -/
def cleanLlmText (content : Str) : Str :=
  pyStrip (stripFenceEnd (stripFenceStart (pyStrip content)))

/-- First index of a character (Python `str.find`, as an Option). -/
def findIdx : Str → Char → Option Nat
  | [], _ => none
  | x :: rest, c => if x = c then some 0 else (findIdx rest c).map (· + 1)

/-- Last index of a character (Python `str.rfind`, as an Option). -/
def rfindIdx (s : Str) (c : Char) : Option Nat :=
  (findIdx s.reverse c).map (fun k => s.length - 1 - k)

/-- Brace-delimited span `text[start : end+1]` for `start = find(lbrace)`,
`end = rfind(rbrace)`, empty unless `0 ≤ start < end`. -/
def braceSpan (text : Str) : Str :=
  match findIdx text lbrace, rfindIdx text rbrace with
  | some i, some j => if i < j then (text.drop i).take (j + 1 - i) else []
  | _, _ => []

/-- One pass of `re.sub(", ws* close-bracket", close-bracket, s)`: drop a
comma standing (up to whitespace) before a closing brace or bracket. The
source applies the brace and bracket substitutions separately; the
patterns are disjoint so one combined pass is equivalent. -/
def rmTCGo : Nat → Str → Str
  | 0, s => s
  | _ + 1, [] => []
  | fuel + 1, c :: rest =>
    if c = ',' then
      match rest.dropWhile pyIsSpace with
      | c2 :: rr =>
        if c2 = rbrace ∨ c2 = ']' then c2 :: rmTCGo fuel rr
        else ',' :: rmTCGo fuel rest
      | [] => ',' :: rmTCGo fuel rest
    else c :: rmTCGo fuel rest

/-- Trailing-comma removal entry point. -/
def rmTrailCommas (s : Str) : Str := rmTCGo s.length s

/-- Python `s.replace(single-quote, double-quote)`. -/
def swapQuotes (s : Str) : Str := s.map (fun c => if c = apos then '"' else c)

/-- Function `_try_parse_obj(s)` of `_parse_llm_price`: parse as-is, else
strip, remove trailing commas, swap quotes and reparse; exceptions at the
call sites are caught, so failures are `none`. -/
def tryParseObj (s : Str) : Option JVal :=
  match json_loads s with
  | some v => some v
  | none => json_loads (swapQuotes (rmTrailCommas (pyStrip s)))

/-- Variant loop of `_parse_llm_price`: first variant parsing to a dict
wins; empty variants and non-dict parses are skipped. -/
def firstObj : List Str → Option (List KV)
  | [] => none
  | v :: rest =>
    if v.isEmpty then firstObj rest
    else
      match tryParseObj v with
      | some (.obj kvs) => some kvs
      | _ => firstObj rest

/-- Helper `_get_num(d, *keys)` of `_parse_llm_price`: first key whose
value converts via `float(str(value).replace(space,empty).replace(comma,
dot))`; values whose conversion raises are skipped (bools, lists, dicts),
`None` values are skipped by the `is not None` guard. -/
def getNum (kvs : List KV) : List Str → Option Q
  | [] => none
  | k :: rest =>
    match lookupKV kvs k with
    | some v =>
      (match v with
       | .null => getNum kvs rest
       | .num q => some q
       | .s sv =>
         (match pyFloat ((sv.filter (fun c => ¬(c = ' '))).map
             (fun c => if c = ',' then '.' else c)) with
          | some q => some q
          | none => getNum kvs rest)
       | _ => getNum kvs rest)
    | none => getNum kvs rest

/-- Python `float(x)` on a JSON value, as used for `confidence`: numbers
pass through, strings parse, bools become 0/1; `None`, lists and dicts
raise TypeError, which the source catches and keeps the old value. -/
def floatOfJVal (v : JVal) (old : Q) : Q :=
  match v with
  | .num q => q
  | .s sv => (pyFloat sv).getD old
  | .b bv => if bv then 1 else 0
  | _ => old

/-- Python `.strip()` on a value that must be a string; anything else
raises AttributeError, as `(obj.get("unit") or unit).strip()` does. -/
def pyStripAttr : JVal → Except PyErr Str
  | .s v => .ok (pyStrip v)
  | _ => .error .attributeError

/-- Intermediate state of the `_parse_llm_price` cascade (its local
variables `ok, price_min, price_max, unit, currency, confidence,
comment`). -/
structure PStage where
  ok : Bool
  price_min : Option Q
  price_max : Option Q
  unit : Str
  currency : Str
  confidence : Q
  comment : Str
  deriving Repr, DecidableEq

/-- Stage 1 of `_parse_llm_price` on the cleaned text: extract the brace
span, try the repair variants, read prices and metadata out of the parsed
object (raising AttributeError on a truthy non-string unit, currency or
comment), and compute the acceptance flag, including the sanity ceiling
and the redundant over-ceiling recheck. -/
def parse_llm_price_stage1 (text : Str) : Except PyErr PStage :=
  let json_str := braceSpan text
  let obj : Option (List KV) :=
    if json_str.isEmpty then none
    else
      let base := pyStrip json_str
      firstObj (if base.isEmpty then []
        else [base, rmTrailCommas base, swapQuotes base])
  match obj with
  | none => .ok ⟨false, none, none, [], str "RUB", 0, []⟩
  | some kvs => do
    let pmin0 := getNum kvs [str "price_min", str "min"]
    let pmax0 := getNum kvs [str "price_max", str "max"]
    let pmin1 := match pmin0, pmax0 with | none, some m => some m | _, _ => pmin0
    let pmax1 := match pmax0, pmin1 with | none, some m => some m | _, _ => pmax0
    let uv := getD kvs (str "unit")
    let us ← pyStripAttr (if truthy uv then uv else .s [])
    let cv := getD kvs (str "currency")
    let cs ← pyStripAttr (if truthy cv then cv else .s (str "RUB"))
    let currency1 := if cs.isEmpty then str "RUB" else cs
    let conf1 : Q :=
      match lookupKV kvs (str "confidence") with
      | some v => floatOfJVal v 0
      | none => 0
    let cmv := getD kvs (str "comment")
    let cms ← pyStripAttr (if truthy cmv then cmv else .s [])
    let ok1 : Bool :=
      match pmin1, pmax1 with
      | some a, some b => decide (0 ≤ a) && decide (a ≤ b) &&
          decide (b ≤ MAX_REASONABLE_UNIT_PRICE)
      | _, _ => false
    let ok2 : Bool :=
      match pmin1, pmax1 with
      | some a, some b =>
        if ok1 ∧ (MAX_REASONABLE_UNIT_PRICE < a ∨ MAX_REASONABLE_UNIT_PRICE < b)
        then false else ok1
      | _, _ => ok1
    .ok ⟨ok2, pmin1, pmax1, us, currency1, conf1, cms⟩

/-- Up to `n` characters matching the class `[digit-or-whitespace]`
(greedy), with the remainder. -/
def takeClass : Nat → Str → (Str × Str)
  | 0, s => ([], s)
  | _ + 1, [] => ([], [])
  | n + 1, c :: rest =>
    if c.isDigit || pyIsSpace c then
      match takeClass n rest with
      | (a, b) => (c :: a, b)
    else ([], c :: rest)

/-- `re.findall` for the token pattern "digit, then up to eight digits or
whitespace (greedy), then optionally a dot or comma followed by digits":
leftmost non-overlapping matches, scanning left to right. -/
def numTokensGo : Nat → Str → List Str
  | 0, _ => []
  | _ + 1, [] => []
  | fuel + 1, c :: rest =>
    if c.isDigit then
      match takeClass 8 rest with
      | (cls, r1) =>
        match r1 with
        | p :: d :: r2 =>
          if (p = '.' ∨ p = ',') ∧ d.isDigit then
            (c :: cls ++ p :: d :: r2.takeWhile Char.isDigit) ::
              numTokensGo fuel (r2.dropWhile Char.isDigit)
          else (c :: cls) :: numTokensGo fuel r1
        | _ => (c :: cls) :: numTokensGo fuel r1
    else numTokensGo fuel rest

/-- Numeric tokens of a text. -/
def numTokens (s : Str) : List Str := numTokensGo s.length s

/-- Magnitude filter of the numeric-extraction fallback: drop small
values (below 10), calendar years (1900..2100), and values above the
sanity ceiling. -/
def plausibleVal (v : Q) : Bool :=
  if v < 10 then false
  else if 1900 ≤ v ∧ v ≤ 2100 then false
  else if MAX_REASONABLE_UNIT_PRICE < v then false
  else true

/-- Insertion into a sorted list. -/
def insertSorted (x : Q) : List Q → List Q
  | [] => [x]
  | y :: ys => if Q.ble x y then x :: y :: ys else y :: insertSorted x ys

/-- Ascending sort (Python `list.sort`). -/
def sortQ (l : List Q) : List Q := l.foldr insertSorted []

/-- Surviving numeric values of the fallback, sorted: every token that
`float`-converts after despacing and comma-to-dot, kept when plausible. -/
def heurValues (text : Str) : List Q :=
  sortQ (((numTokens text).filterMap (fun n =>
    pyFloat ((n.filter (fun c => ¬(c = ' '))).map
      (fun c => if c = ',' then '.' else c)))).filter plausibleVal)

/-- Annotation appended by the numeric-extraction fallback. -/
def heurNote : Str := str "Диапазон цен восстановлен эвристикой из текста ответа LLM."

/-- Annotation appended by the narrow-range widening. -/
def widenNote : Str := str "Диапазон цен немного расширен для более реалистичного разброса."

/-- Stage 2 of `_parse_llm_price` (entered when stage 1 did not accept a
range): take the first two sorted surviving values (duplicating a single
value), default the unit and currency, cap the confidence at 0.5, and
append the recovery annotation. -/
def heuristicStep (text : Str) (st : PStage) : PStage :=
  match heurValues text with
  | [] => st
  | v0 :: vrest =>
    ⟨true,
     some v0,
     some (match vrest with | [] => v0 | v1 :: _ => v1),
     (if st.unit.isEmpty then str "шт" else st.unit),
     (if st.currency.isEmpty then str "RUB" else st.currency),
     Q.min2 (if st.confidence = 0 then Q.mk' 1 2 else st.confidence) (Q.mk' 1 2),
     pyStrip (st.comment ++ ' ' :: heurNote)⟩

/-- Stage 2.5 of `_parse_llm_price`: when the accepted range is narrower
than a 1.5 ratio, widen it symmetrically around the midpoint to at least
±30 percent, clipped to [10, ceiling], annotating the comment. -/
def widenStep (st : PStage) : PStage :=
  match st.price_min, st.price_max with
  | some a, some b =>
    if st.ok ∧ 0 < a then
      if b / Q.max2 a (Q.mk' 1 1000000) < Q.mk' 3 2 then
        let mid := (a + b) / 2
        let spread := Q.max2 (b - a) (Q.mk' 3 10 * mid)
        ⟨st.ok,
         some (Q.max2 10 (mid - spread)),
         some (Q.min2 MAX_REASONABLE_UNIT_PRICE (mid + spread)),
         st.unit, st.currency, st.confidence,
         (if st.comment.isEmpty then widenNote else st.comment ++ ' ' :: widenNote)⟩
      else st
    else st
  | _, _ => st

/-- Final assembly of `_parse_llm_price`: run the heuristic stage when the
JSON stage accepted nothing, widen, and build the returned `PriceInfo`
(with the default comment when nothing produced one). -/
def llmFinal (text : Str) (st1 : PStage) : PriceInfo :=
  let st3 := widenStep (if st1.ok then st1 else heuristicStep text st1)
  ⟨st3.ok,
   (if st3.ok then str "llm" else str "llm_error"),
   st3.price_min, st3.price_max, st3.unit, st3.currency, st3.confidence,
   (if st3.ok = false ∧ st3.comment.isEmpty then
     str "LLM не смог вернуть корректный диапазон цен." else st3.comment)⟩

/-- Method `SearchService._parse_llm_price(content)` of
search_services.py, as the composition of its stages; the return value is
`Except` because the metadata reads of stage 1 can raise AttributeError. -/
def parse_llm_price (content : Str) : Except PyErr PriceInfo :=
  if (pyStrip content).isEmpty then
    .ok ⟨false, str "llm", none, none, str "шт", str "RUB", 0,
      str "Пустой ответ LLM при оценке цены."⟩
  else
    match parse_llm_price_stage1 (cleanLlmText content) with
    | .error e => .error e
    | .ok st1 => .ok (llmFinal (cleanLlmText content) st1)

/- ===================== C2 / C5 supporting lemmas ===================== -/

instance : DecidableEq (Except PyErr PriceInfo) := fun a b =>
  match a, b with
  | .error e1, .error e2 =>
    if h : e1 = e2 then isTrue (by rw [h]) else isFalse (by intro hc; injection hc; contradiction)
  | .ok a1, .ok a2 =>
    if h : a1 = a2 then isTrue (by rw [h]) else isFalse (by intro hc; injection hc; contradiction)
  | .error _, .ok _ => isFalse (fun hc => Except.noConfusion hc)
  | .ok _, .error _ => isFalse (fun hc => Except.noConfusion hc)

theorem strStarts_refl (s : Str) : strStarts s s = true := by
  induction s with
  | nil => rfl
  | cons c rest IH => simp [strStarts, IH]

theorem strStarts_exists (s p : Str) (h : strStarts s p = true) : ∃ t, s = p ++ t := by
  induction p generalizing s with
  | nil => exact ⟨s, rfl⟩
  | cons pc pr IH =>
    cases s with
    | nil => simp [strStarts] at h
    | cons c rest =>
      simp only [strStarts, Bool.and_eq_true] at h
      obtain ⟨t, ht⟩ := IH rest h.2
      refine ⟨t, ?_⟩
      have hc : c = pc := by simpa using h.1
      rw [hc, ht]
      rfl

theorem strStarts_nil_r (s : Str) : strStarts s [] = true := by
  cases s <;> rfl

theorem strStarts_append_self (p r : Str) : strStarts (p ++ r) p = true := by
  induction p with
  | nil => exact strStarts_nil_r r
  | cons pc pr IH => simp [strStarts, IH]

theorem strStarts_append_of (s p b : Str) (h : strStarts s p = true) :
    strStarts (s ++ b) p = true := by
  obtain ⟨t, ht⟩ := strStarts_exists s p h
  rw [ht, List.append_assoc]
  exact strStarts_append_self p (t ++ b)

theorem strEnds_append_self (a p : Str) : strEnds (a ++ p) p = true := by
  unfold strEnds
  rw [List.reverse_append]
  exact strStarts_append_self p.reverse a.reverse

theorem strContains_append_right (a b pat : Str) (h : strContains b pat = true) :
    strContains (a ++ b) pat = true := by
  induction a with
  | nil => exact h
  | cons c rest IH =>
    cases hb : b with
    | nil =>
      rw [hb] at h IH
      simp only [List.cons_append]
      unfold strContains
      rw [IH]
      simp
    | cons b0 bb =>
      rw [hb] at h IH
      simp only [List.cons_append]
      unfold strContains
      rw [IH]
      simp

theorem strContains_self (p : Str) : strContains p p = true := by
  cases p with
  | nil => rfl
  | cons c rest =>
    unfold strContains
    rw [strStarts_refl]
    simp

theorem strContains_of_strEnds (z pat : Str) (h : strEnds z pat = true) :
    strContains z pat = true := by
  obtain ⟨t, ht⟩ := strStarts_exists z.reverse pat.reverse h
  have hz : z = t.reverse ++ pat := by
    have := congrArg List.reverse ht
    simpa using this
  rw [hz]
  exact strContains_append_right _ _ _ (strContains_self pat)

theorem strContains_nilpat (b : Str) : strContains b [] = true := by
  induction b with
  | nil => rfl
  | cons c rest IH =>
    unfold strContains
    rw [strStarts_nil_r]
    simp

theorem strContains_append_left (a b pat : Str) (h : strContains a pat = true) :
    strContains (a ++ b) pat = true := by
  induction a with
  | nil =>
    cases pat with
    | nil => exact strContains_nilpat b
    | cons p0 pp => simp [strContains, strStarts] at h
  | cons c rest IH =>
    simp only [List.cons_append]
    unfold strContains at h ⊢
    rcases Bool.or_eq_true_iff.mp h with h1 | h2
    · have h3 := strStarts_append_of (c :: rest) pat b h1
      simp only [List.cons_append] at h3
      rw [h3]
      simp
    · rw [IH h2]
      simp

theorem strEnds_dropWhile (u pat : Str) (p0 : Char) (pp : Str)
    (hpat : pat = p0 :: pp) (h0 : pyIsSpace p0 = false) :
    strEnds ((u ++ pat).dropWhile pyIsSpace) pat = true := by
  induction u with
  | nil =>
    rw [List.nil_append, hpat, List.dropWhile_cons, h0]
    simp only [Bool.false_eq_true, if_false]
    rw [← hpat]
    simpa using strEnds_append_self [] pat
  | cons c rest IH =>
    by_cases hc : pyIsSpace c = true
    · simpa [List.cons_append, List.dropWhile_cons, hc] using IH
    · simp only [Bool.not_eq_true] at hc
      simp only [List.cons_append, List.dropWhile_cons, hc]
      simp only [Bool.false_eq_true, if_false]
      simpa using strEnds_append_self (c :: rest) pat

theorem pyStrip_strEnds (y pat : Str) (p0 pl : Char) (pp pr : Str)
    (hpat : pat = p0 :: pp) (h0 : pyIsSpace p0 = false)
    (hrev : pat.reverse = pl :: pr) (hl : pyIsSpace pl = false)
    (hend : strEnds y pat = true) :
    strEnds (pyStrip y) pat = true := by
  obtain ⟨t, ht⟩ := strStarts_exists y.reverse pat.reverse hend
  have hy : y = t.reverse ++ pat := by
    have := congrArg List.reverse ht
    simpa using this
  have h1 : strEnds (y.dropWhile pyIsSpace) pat = true := by
    rw [hy]
    exact strEnds_dropWhile t.reverse pat p0 pp hpat h0
  obtain ⟨t2, ht2⟩ := strStarts_exists (y.dropWhile pyIsSpace).reverse pat.reverse h1
  unfold pyStrip
  rw [ht2, hrev, List.cons_append, List.dropWhile_cons, hl]
  simp only [Bool.false_eq_true, if_false]
  rw [← List.cons_append, ← hrev, ← ht2]
  simp only [List.reverse_reverse]
  exact h1

theorem comment_annotated (x : Str) :
    strContains (pyStrip (x ++ ' ' :: heurNote)) heurNote = true := by
  have hend : strEnds (x ++ ' ' :: heurNote) heurNote = true := by
    have he : x ++ ' ' :: heurNote = (x ++ [' ']) ++ heurNote := by simp
    rw [he]
    exact strEnds_append_self _ _
  have hstrip : strEnds (pyStrip (x ++ ' ' :: heurNote)) heurNote = true := by
    refine pyStrip_strEnds _ _ 'Д' '.' (heurNote.drop 1) (heurNote.reverse.drop 1)
      ?_ (by decide) ?_ (by decide) hend
    · decide
    · decide
  exact strContains_of_strEnds _ _ hstrip

theorem widenStep_ok (st : PStage) : (widenStep st).ok = st.ok := by
  unfold widenStep
  split
  · split
    · split
      · rfl
      · rfl
    · rfl
  · rfl

theorem widenStep_confidence (st : PStage) : (widenStep st).confidence = st.confidence := by
  unfold widenStep
  split
  · split
    · split
      · rfl
      · rfl
    · rfl
  · rfl

theorem widenStep_comment (st : PStage) :
    (widenStep st).comment = st.comment ∨
    ((widenStep st).comment = st.comment ++ ' ' :: widenNote ∧ st.comment ≠ []) ∨
    (st.comment = [] ∧ (widenStep st).comment = widenNote) := by
  unfold widenStep
  split
  · split
    · split
      · by_cases hemp : st.comment.isEmpty = true
        · right; right
          exact ⟨List.isEmpty_iff.mp hemp, by simp [hemp]⟩
        · right; left
          refine ⟨by simp [hemp], ?_⟩
          intro hc2
          rw [hc2] at hemp
          exact hemp rfl
      · left; rfl
    · left; rfl
  · left; rfl

theorem heuristicStep_ok (text : Str) (st : PStage) (h : heurValues text ≠ []) :
    (heuristicStep text st).ok = true := by
  unfold heuristicStep
  split
  · rename_i heq
    exact absurd heq h
  · rfl

theorem Q.ble_refl (a : Q) : Q.ble a a = true := by
  simp [Q.ble]

theorem Q.min2_le_right (a b : Q) : Q.min2 a b ≤ b := by
  unfold Q.min2
  by_cases h : Q.ble a b = true
  · rw [if_pos h]
    exact h
  · rw [if_neg h]
    exact Q.ble_refl b

theorem heuristicStep_confidence (text : Str) (st : PStage) (h : heurValues text ≠ []) :
    (heuristicStep text st).confidence ≤ Q.mk' 1 2 := by
  unfold heuristicStep
  split
  · rename_i heq; exact absurd heq h
  · exact Q.min2_le_right _ _

theorem heuristicStep_comment (text : Str) (st : PStage) (h : heurValues text ≠ []) :
    (heuristicStep text st).comment = pyStrip (st.comment ++ ' ' :: heurNote) := by
  unfold heuristicStep
  split
  · rename_i heq; exact absurd heq h
  · rfl

theorem parse_llm_price_ok_eq (content : Str) (st1 : PStage)
    (hemp : (pyStrip content).isEmpty = false)
    (hst : parse_llm_price_stage1 (cleanLlmText content) = .ok st1) :
    parse_llm_price content = .ok (llmFinal (cleanLlmText content) st1) := by
  unfold parse_llm_price
  rw [hemp]
  simp only [Bool.false_eq_true, if_false, hst]

theorem parse_llm_price_err_eq (content : Str) (e : PyErr)
    (hemp : (pyStrip content).isEmpty = false)
    (hst : parse_llm_price_stage1 (cleanLlmText content) = .error e) :
    parse_llm_price content = .error e := by
  unfold parse_llm_price
  rw [hemp]
  simp only [Bool.false_eq_true, if_false, hst]

/- ===================== C2 ===================== -/

/-- C2 counterexample. `_parse_llm_price` is not total: on a well-formed
JSON object supplying a truthy non-string `unit` (here the number 5), the
line `(obj.get("unit") or unit).strip()` raises AttributeError. -/
theorem C2_counterexample :
    parse_llm_price (str "\x7b\"price_min\": 100, \"unit\": 5\x7d") =
      .error .attributeError := by decide

/-- C2 (amended). `_parse_llm_price` returns a `PriceInfo` without raising
for every input whose cleaned text has no brace-delimited span (the empty
string and arbitrary non-JSON prose included); whenever it returns, an
input whose cleaned text contains at least one (in particular, at least
two) plausible numeric tokens yields `ok = true`; and a well-formed JSON
object whose prices exceed the sanity ceiling is handled without raising,
yielding `ok = false` with the prices rejected. It raises AttributeError
exactly when the parsed JSON supplies a truthy non-string unit, currency
or comment. -/
theorem C2_parse_llm_price_robustness :
    (∀ content : Str,
      (braceSpan (cleanLlmText content) = [] →
        ∃ i, parse_llm_price content = .ok i) ∧
      (∀ i, parse_llm_price content = .ok i →
        heurValues (cleanLlmText content) ≠ [] → i.ok = true)) ∧
    parse_llm_price (str "\x7b\"price_min\": 20000000, \"price_max\": 30000000\x7d") =
      .ok ⟨false, str "llm_error", some 20000000, some 30000000, [], str "RUB", 0,
        str "LLM не смог вернуть корректный диапазон цен."⟩ := by
  constructor
  · intro content
    constructor
    · intro hb
      by_cases hemp : (pyStrip content).isEmpty = true
      · exact ⟨⟨false, str "llm", none, none, str "шт", str "RUB", 0,
          str "Пустой ответ LLM при оценке цены."⟩, by simp [parse_llm_price, hemp]⟩
      · simp only [Bool.not_eq_true] at hemp
        have hst : parse_llm_price_stage1 (cleanLlmText content) =
            .ok ⟨false, none, none, [], str "RUB", 0, []⟩ := by
          simp [parse_llm_price_stage1, hb]
        exact ⟨_, parse_llm_price_ok_eq content _ hemp hst⟩
    · intro i hi hvals
      by_cases hemp : (pyStrip content).isEmpty = true
      · exfalso
        apply hvals
        have hc : cleanLlmText content = [] := by
          unfold cleanLlmText
          rw [List.isEmpty_iff.mp hemp]
          rfl
        rw [hc]
        rfl
      · simp only [Bool.not_eq_true] at hemp
        cases hst : parse_llm_price_stage1 (cleanLlmText content) with
        | error e =>
          rw [parse_llm_price_err_eq content e hemp hst] at hi
          exact absurd hi (fun hc => Except.noConfusion hc)
        | ok st1 =>
          rw [parse_llm_price_ok_eq content st1 hemp hst] at hi
          have hieq : llmFinal (cleanLlmText content) st1 = i := by
            injection hi
          rw [← hieq]
          have hok3 : (llmFinal (cleanLlmText content) st1).ok =
              (widenStep (if st1.ok then st1
                else heuristicStep (cleanLlmText content) st1)).ok := rfl
          rw [hok3, widenStep_ok]
          by_cases hok : st1.ok = true
          · rw [if_pos hok]
            exact hok
          · simp only [Bool.not_eq_true] at hok
            rw [hok]
            simp only [Bool.false_eq_true, if_false]
            exact heuristicStep_ok _ st1 hvals
  · decide

/-- Witness for C2's amended theorem: the prose input
"price_min=100, price_max=100 rub" contains no brace span, contains two
plausible tokens (both 100), and yields `ok = true`. -/
theorem C2_parse_llm_price_robustness_witness :
    braceSpan (cleanLlmText (str "price_min=100, price_max=100 rub")) = [] ∧
    heurValues (cleanLlmText (str "price_min=100, price_max=100 rub")) ≠ [] ∧
    ∃ i, parse_llm_price (str "price_min=100, price_max=100 rub") = .ok i ∧
      i.ok = true := by
  have h := C2_parse_llm_price_robustness.1 (str "price_min=100, price_max=100 rub")
  obtain ⟨i, hi⟩ := h.1 (by decide)
  exact ⟨by decide, by decide, i, hi, h.2 i hi (by decide)⟩

/- ===================== C5 ===================== -/

/-- C5 counterexample. On the braceless response "100; 100; 200" the
surviving sorted values are [100, 100, 200]; the fallback takes
`values[0], values[1]` — the two smallest with multiplicity, (100, 100) —
not the two smallest distinct values (100, 200): the 1-ratio pair is then
widened to (70, 130), while the claim's procedure would return (100, 200)
unwidened (ratio 2). -/
theorem C5_counterexample :
    (parse_llm_price (str "100; 100; 200")).toOption.map PriceInfo.price_min
        = some (some 70) ∧
    (parse_llm_price (str "100; 100; 200")).toOption.map PriceInfo.price_max
        = some (some 130) ∧
    ¬((parse_llm_price (str "100; 100; 200")).toOption.map PriceInfo.price_max
        = some (some 200)) := by decide

/-- C5 (amended). Whenever the JSON stage completes without raising but
does not accept a range, and at least one plausible numeric token
survives the magnitude filters, `_parse_llm_price` returns `ok = true`
with the price pair produced by the numeric-extraction fallback — the
first two values of the sorted surviving list, i.e. the two smallest
counted with multiplicity (a single survivor duplicated) — as afterwards
adjusted by the narrow-range widening stage; on this path the returned
confidence never exceeds 0.5 and the comment carries the
heuristic-recovery annotation. -/
theorem C5_heuristic_fallback (content : Str) (st1 : PStage)
    (hemp : (pyStrip content).isEmpty = false)
    (hst : parse_llm_price_stage1 (cleanLlmText content) = .ok st1)
    (hok : st1.ok = false)
    (hvals : heurValues (cleanLlmText content) ≠ []) :
    ∃ i, parse_llm_price content = .ok i ∧ i.ok = true ∧
      i.price_min = (widenStep (heuristicStep (cleanLlmText content) st1)).price_min ∧
      i.price_max = (widenStep (heuristicStep (cleanLlmText content) st1)).price_max ∧
      i.confidence ≤ Q.mk' 1 2 ∧
      strContains i.comment heurNote = true := by
  have hsel : (if st1.ok then st1 else heuristicStep (cleanLlmText content) st1)
      = heuristicStep (cleanLlmText content) st1 := by
    rw [hok]
    simp
  have hok2 : (heuristicStep (cleanLlmText content) st1).ok = true :=
    heuristicStep_ok _ st1 hvals
  have hok3 : (widenStep (heuristicStep (cleanLlmText content) st1)).ok = true := by
    rw [widenStep_ok]
    exact hok2
  have hfin : llmFinal (cleanLlmText content) st1 =
      ⟨(widenStep (heuristicStep (cleanLlmText content) st1)).ok,
       (if (widenStep (heuristicStep (cleanLlmText content) st1)).ok
         then str "llm" else str "llm_error"),
       (widenStep (heuristicStep (cleanLlmText content) st1)).price_min,
       (widenStep (heuristicStep (cleanLlmText content) st1)).price_max,
       (widenStep (heuristicStep (cleanLlmText content) st1)).unit,
       (widenStep (heuristicStep (cleanLlmText content) st1)).currency,
       (widenStep (heuristicStep (cleanLlmText content) st1)).confidence,
       (if (widenStep (heuristicStep (cleanLlmText content) st1)).ok = false ∧
           (widenStep (heuristicStep (cleanLlmText content) st1)).comment.isEmpty then
         str "LLM не смог вернуть корректный диапазон цен."
        else (widenStep (heuristicStep (cleanLlmText content) st1)).comment)⟩ := by
    unfold llmFinal
    rw [hsel]
  refine ⟨llmFinal (cleanLlmText content) st1,
    parse_llm_price_ok_eq content st1 hemp hst, ?_, ?_, ?_, ?_, ?_⟩
  · rw [hfin, hok3]
  · rw [hfin]
  · rw [hfin]
  · rw [hfin]
    show (widenStep (heuristicStep (cleanLlmText content) st1)).confidence ≤ Q.mk' 1 2
    rw [widenStep_confidence]
    exact heuristicStep_confidence _ st1 hvals
  · have hproj : (llmFinal (cleanLlmText content) st1).comment =
        (widenStep (heuristicStep (cleanLlmText content) st1)).comment := by
      unfold llmFinal
      rw [hsel]
      show (if (widenStep (heuristicStep (cleanLlmText content) st1)).ok = false ∧
          (widenStep (heuristicStep (cleanLlmText content) st1)).comment.isEmpty = true then
          str "LLM не смог вернуть корректный диапазон цен."
        else (widenStep (heuristicStep (cleanLlmText content) st1)).comment) =
        (widenStep (heuristicStep (cleanLlmText content) st1)).comment
      exact if_neg (by
        intro hcon
        rw [hok3] at hcon
        exact absurd hcon.1 (by simp))
    rw [hproj]
    have hbase : strContains (heuristicStep (cleanLlmText content) st1).comment
        heurNote = true := by
      rw [heuristicStep_comment _ st1 hvals]
      exact comment_annotated st1.comment
    rcases widenStep_comment (heuristicStep (cleanLlmText content) st1) with hw | hw | hw
    · rw [hw]
      exact hbase
    · rw [hw.1]
      rw [show (heuristicStep (cleanLlmText content) st1).comment ++ ' ' :: widenNote =
          ((heuristicStep (cleanLlmText content) st1).comment ++ [' ']) ++ widenNote from by
        simp]
      exact strContains_append_left _ _ _ (strContains_append_left _ _ _ hbase)
    · exfalso
      have hnil := hw.1
      rw [hnil] at hbase
      exact absurd hbase (by decide)

/-- Witness for C5's amended theorem at the concrete braceless response
"100; 100; 200" (JSON stage accepts nothing, three plausible tokens). -/
theorem C5_heuristic_fallback_witness :
    (pyStrip (str "100; 100; 200")).isEmpty = false ∧
    heurValues (cleanLlmText (str "100; 100; 200")) ≠ [] ∧
    ∃ i, parse_llm_price (str "100; 100; 200") = .ok i ∧ i.ok = true ∧
      i.price_min = (widenStep (heuristicStep (cleanLlmText (str "100; 100; 200"))
        ⟨false, none, none, [], str "RUB", 0, []⟩)).price_min ∧
      i.price_max = (widenStep (heuristicStep (cleanLlmText (str "100; 100; 200"))
        ⟨false, none, none, [], str "RUB", 0, []⟩)).price_max ∧
      i.confidence ≤ Q.mk' 1 2 ∧
      strContains i.comment heurNote = true :=
  ⟨by decide, by decide,
    C5_heuristic_fallback (str "100; 100; 200")
      ⟨false, none, none, [], str "RUB", 0, []⟩
      (by decide) (by rfl) (by rfl) (by decide)⟩

/- ===================== SearchService.search_prices (C6) ===================== -/

/-- Cache key of `search_prices`: `(task.lower(), city.lower())`. -/
abbrev CKey := Str × Str

/-- Per-instance state of `SearchService`: the price cache `_cache`. -/
structure SearchState where
  cache : List (CKey × PriceInfo)
  deriving DecidableEq

/-- Cache lookup (`cache_key in self._cache` plus indexing). -/
def cacheLookup : List (CKey × PriceInfo) → CKey → Option PriceInfo
  | [], _ => none
  | (k, v) :: rest, key => if k = key then some v else cacheLookup rest key

/-- Cache store `self._cache[cache_key] = info`. -/
def cacheInsert : List (CKey × PriceInfo) → CKey → PriceInfo → List (CKey × PriceInfo)
  | [], key, v => [(key, v)]
  | (k, v') :: rest, key, v =>
    if k = key then (key, v) :: rest else (k, v') :: cacheInsert rest key v

/-- Message of an embedded exception, as interpolated into the
`llm_error` comment (the CPython message text is abstracted by the
exception's name). -/
def pyErrMsg : PyErr → Str
  | .attributeError => str "AttributeError"

/-- Method `SearchService.search_prices(task, city)` of search_services.py
as a state transformer. The constructor-time facts are parameters: whether
`OPENROUTER_API_KEY` is configured, and the LLM transport `_ask_llm_price`
(an external call, abstracted as an oracle from task and city to the
returned content; it catches its own errors and returns a string). The
third component of the result records whether the LLM was consulted. -/
def search_prices (apiKey : Bool) (ask : Str → Str → Str)
    (st : SearchState) (task0 city0 : Str) : PriceInfo × SearchState × Bool :=
  let task := pyStrip task0
  let city := if (pyStrip city0).isEmpty then str "Россия" else pyStrip city0
  if task.isEmpty then
    (⟨false, str "search_service", none, none, str "шт", str "RUB", 0,
      str "Не задано описание вида работ для поиска цены."⟩, st, false)
  else
    let key : CKey := (pyLower task, pyLower city)
    match cacheLookup st.cache key with
    | some cached =>
      (⟨cached.ok, str "cache", cached.price_min, cached.price_max, cached.unit,
        cached.currency, cached.confidence, cached.comment⟩, st, false)
    | none =>
      if apiKey = false then
        (⟨false, str "none", none, none, str "шт", str "RUB", 0,
          str "OPENROUTER_API_KEY не настроен, поиск цен недоступен."⟩,
         ⟨cacheInsert st.cache key
           ⟨false, str "none", none, none, str "шт", str "RUB", 0,
            str "OPENROUTER_API_KEY не настроен, поиск цен недоступен."⟩⟩, false)
      else
        let info : PriceInfo :=
          match parse_llm_price (ask task city) with
          | .ok i => i
          | .error e => ⟨false, str "llm_error", none, none, str "шт", str "RUB", 0,
              str "Ошибка при запросе LLM: " ++ pyErrMsg e⟩
        (info, ⟨cacheInsert st.cache key info⟩, true)

theorem cacheLookup_insert_self (c : List (CKey × PriceInfo)) (k : CKey) (v : PriceInfo) :
    cacheLookup (cacheInsert c k v) k = some v := by
  induction c with
  | nil => simp [cacheInsert, cacheLookup]
  | cons p rest IH =>
    obtain ⟨k0, v0⟩ := p
    by_cases h0 : k0 = k <;> simp [cacheInsert, cacheLookup, h0, IH]

/-- C6. `search_prices` caches every lookup outcome, including failures:
on a cache miss with a non-empty task, the produced quote (whatever the
key configuration and LLM transport did) is stored under the
case-normalized key, and any subsequent call whose normalized key is
equal returns a fresh `PriceInfo` tagged `source = "cache"` whose other
fields equal the cached quote's, leaves the cache unchanged (the cached
quote is not mutated), and issues no LLM call. -/
theorem C6_search_prices_cache (apiKey : Bool) (ask : Str → Str → Str)
    (st : SearchState) (task city task2 city2 : Str)
    (i1 : PriceInfo) (s1 : SearchState) (c1 : Bool)
    (i2 : PriceInfo) (s2 : SearchState) (c2 : Bool)
    (htask : (pyStrip task).isEmpty = false)
    (hmiss : cacheLookup st.cache (pyLower (pyStrip task),
      pyLower (if (pyStrip city).isEmpty then str "Россия" else pyStrip city)) = none)
    (htask2 : (pyStrip task2).isEmpty = false)
    (hkey : (pyLower (pyStrip task2),
        pyLower (if (pyStrip city2).isEmpty then str "Россия" else pyStrip city2))
      = (pyLower (pyStrip task),
        pyLower (if (pyStrip city).isEmpty then str "Россия" else pyStrip city)))
    (h1 : search_prices apiKey ask st task city = (i1, s1, c1))
    (h2 : search_prices apiKey ask s1 task2 city2 = (i2, s2, c2)) :
    cacheLookup s1.cache (pyLower (pyStrip task),
      pyLower (if (pyStrip city).isEmpty then str "Россия" else pyStrip city)) = some i1 ∧
    s2 = s1 ∧ c2 = false ∧ i2.source = str "cache" ∧
    i2.ok = i1.ok ∧ i2.price_min = i1.price_min ∧ i2.price_max = i1.price_max ∧
    i2.unit = i1.unit ∧ i2.currency = i1.currency ∧
    i2.confidence = i1.confidence ∧ i2.comment = i1.comment := by
  have hstore : cacheLookup s1.cache (pyLower (pyStrip task),
      pyLower (if (pyStrip city).isEmpty then str "Россия" else pyStrip city)) = some i1 := by
    unfold search_prices at h1
    simp only [htask, Bool.false_eq_true, if_false, hmiss] at h1
    cases apiKey with
    | false =>
      rw [if_pos rfl] at h1
      rw [Prod.mk.injEq, Prod.mk.injEq] at h1
      obtain ⟨hi, hs, -⟩ := h1
      rw [← hs, ← hi]
      exact cacheLookup_insert_self st.cache _ _
    | true =>
      rw [if_neg (by decide)] at h1
      rw [Prod.mk.injEq, Prod.mk.injEq] at h1
      obtain ⟨hi, hs, -⟩ := h1
      rw [← hs, ← hi]
      exact cacheLookup_insert_self st.cache _ _
  refine ⟨hstore, ?_⟩
  unfold search_prices at h2
  simp only [htask2, Bool.false_eq_true, if_false, hkey, hstore] at h2
  rw [Prod.mk.injEq, Prod.mk.injEq] at h2
  obtain ⟨hi, hs, hc⟩ := h2
  rw [← hs, ← hc, ← hi]
  exact ⟨rfl, rfl, rfl, rfl, rfl, rfl, rfl, rfl, rfl, rfl⟩

theorem C6_search_prices_cache_witness :
    (pyStrip (str "A")).isEmpty = false ∧
    cacheLookup (SearchState.mk []).cache (pyLower (pyStrip (str "A")),
      pyLower (if (pyStrip (str "B")).isEmpty then str "Россия" else pyStrip (str "B"))) = none ∧
    (cacheLookup (SearchState.mk [((str "a", str "b"),
        ⟨false, str "none", none, none, str "шт", str "RUB", 0,
         str "OPENROUTER_API_KEY не настроен, поиск цен недоступен."⟩)]).cache
        (pyLower (pyStrip (str "A")),
         pyLower (if (pyStrip (str "B")).isEmpty then str "Россия" else pyStrip (str "B")))
      = some ⟨false, str "none", none, none, str "шт", str "RUB", 0,
         str "OPENROUTER_API_KEY не настроен, поиск цен недоступен."⟩ ∧
     SearchState.mk [((str "a", str "b"),
        ⟨false, str "none", none, none, str "шт", str "RUB", 0,
         str "OPENROUTER_API_KEY не настроен, поиск цен недоступен."⟩)]
      = SearchState.mk [((str "a", str "b"),
        ⟨false, str "none", none, none, str "шт", str "RUB", 0,
         str "OPENROUTER_API_KEY не настроен, поиск цен недоступен."⟩)] ∧
     false = false ∧
     (PriceInfo.mk false (str "cache") none none (str "шт") (str "RUB") 0
        (str "OPENROUTER_API_KEY не настроен, поиск цен недоступен.")).source = str "cache" ∧
     (PriceInfo.mk false (str "cache") none none (str "шт") (str "RUB") 0
        (str "OPENROUTER_API_KEY не настроен, поиск цен недоступен.")).ok
       = (PriceInfo.mk false (str "none") none none (str "шт") (str "RUB") 0
          (str "OPENROUTER_API_KEY не настроен, поиск цен недоступен.")).ok ∧
     (PriceInfo.mk false (str "cache") none none (str "шт") (str "RUB") 0
        (str "OPENROUTER_API_KEY не настроен, поиск цен недоступен.")).price_min
       = (PriceInfo.mk false (str "none") none none (str "шт") (str "RUB") 0
          (str "OPENROUTER_API_KEY не настроен, поиск цен недоступен.")).price_min ∧
     (PriceInfo.mk false (str "cache") none none (str "шт") (str "RUB") 0
        (str "OPENROUTER_API_KEY не настроен, поиск цен недоступен.")).price_max
       = (PriceInfo.mk false (str "none") none none (str "шт") (str "RUB") 0
          (str "OPENROUTER_API_KEY не настроен, поиск цен недоступен.")).price_max ∧
     (PriceInfo.mk false (str "cache") none none (str "шт") (str "RUB") 0
        (str "OPENROUTER_API_KEY не настроен, поиск цен недоступен.")).unit
       = (PriceInfo.mk false (str "none") none none (str "шт") (str "RUB") 0
          (str "OPENROUTER_API_KEY не настроен, поиск цен недоступен.")).unit ∧
     (PriceInfo.mk false (str "cache") none none (str "шт") (str "RUB") 0
        (str "OPENROUTER_API_KEY не настроен, поиск цен недоступен.")).currency
       = (PriceInfo.mk false (str "none") none none (str "шт") (str "RUB") 0
          (str "OPENROUTER_API_KEY не настроен, поиск цен недоступен.")).currency ∧
     (PriceInfo.mk false (str "cache") none none (str "шт") (str "RUB") 0
        (str "OPENROUTER_API_KEY не настроен, поиск цен недоступен.")).confidence
       = (PriceInfo.mk false (str "none") none none (str "шт") (str "RUB") 0
          (str "OPENROUTER_API_KEY не настроен, поиск цен недоступен.")).confidence ∧
     (PriceInfo.mk false (str "cache") none none (str "шт") (str "RUB") 0
        (str "OPENROUTER_API_KEY не настроен, поиск цен недоступен.")).comment
       = (PriceInfo.mk false (str "none") none none (str "шт") (str "RUB") 0
          (str "OPENROUTER_API_KEY не настроен, поиск цен недоступен.")).comment) :=
  ⟨by decide, rfl,
   C6_search_prices_cache false (fun _ _ => []) (SearchState.mk [])
     (str "A") (str "B") (str "A") (str "B")
     (PriceInfo.mk false (str "none") none none (str "шт") (str "RUB") 0
        (str "OPENROUTER_API_KEY не настроен, поиск цен недоступен."))
     (SearchState.mk [((str "a", str "b"),
        ⟨false, str "none", none, none, str "шт", str "RUB", 0,
         str "OPENROUTER_API_KEY не настроен, поиск цен недоступен."⟩)]) false
     (PriceInfo.mk false (str "cache") none none (str "шт") (str "RUB") 0
        (str "OPENROUTER_API_KEY не настроен, поиск цен недоступен."))
     (SearchState.mk [((str "a", str "b"),
        ⟨false, str "none", none, none, str "шт", str "RUB", 0,
         str "OPENROUTER_API_KEY не настроен, поиск цен недоступен."⟩)]) false
     (by decide) rfl (by decide) rfl rfl rfl⟩

/- ============== extract_works volume aggregation (C7) ============== -/

/-- A work entry as assembled by the collection phases of
`extract_works` (generate_report.py): `\x7b"name": ..., "volume": ...,
"unit": ...\x7d` with string values (`str(...)` of the stored volume). -/
structure WEntry where
  name : Str
  volume : Str
  unit : Str
  deriving Repr, DecidableEq

/-- `volume_raw.replace(" ", "")`. -/
def despace (s : Str) : Str := s.filter (fun c => c != ' ')

/-- `.replace(",", ".")`. -/
def commaDot (s : Str) : Str := s.map (fun c => if c = ',' then '.' else c)

/-- `float(volume.replace(" ", "").replace(",", "."))`, `none` when the
call raises `ValueError`. -/
def volParse (s : Str) : Option Q := pyFloat (commaDot (despace s))

/-- Floor of an exact rational. -/
def qFloor (q : Q) : ℤ := Int.fdiv q.num (q.den : ℤ)

/-- Round to the nearest integer, ties to even: the rounding of CPython's
fixed-point float formatting at the magnitudes reached here. -/
def rndHalfEven (q : Q) : ℤ :=
  let f := qFloor q
  let r2 := (q - Q.ofInt f) * 2
  if r2 < 1 then f
  else if 1 < r2 then f + 1
  else if f % 2 = 0 then f else f + 1

/-- `s.rstrip(c)` for a single strip character. -/
def rstripCh (s : Str) (c : Char) : Str := (s.reverse.dropWhile (fun x => x = c)).reverse

/-- `f"\x7btotal:.2f\x7d"`: two fixed decimals, round half to even. -/
def fmtTwo (t : Q) : Str :=
  let n := rndHalfEven (t * 100)
  let m := n.natAbs
  let sgn : Str := if n < 0 then ['-'] else []
  let fp := m % 100
  sgn ++ natToStr (m / 100) ++ '.' :: (if fp < 10 then '0' :: natToStr fp else natToStr fp)

/-- The stored volume for a summed total: `str(int(total))` when `total`
is within `1e-6` of an integer, else `f"\x7btotal:.2f\x7d".rstrip("0").rstrip(".")`. -/
def formatTotal (t : Q) : Str :=
  if Q.abs (t - Q.ofInt (pyTrunc t)) < Q.mk' 1 1000000 then intToStr (pyTrunc t)
  else rstripCh (rstripCh (fmtTwo t) '0') '.'

/-- The volume stored at a key after a collision: the `try/except` ladder
of the aggregation loop of `extract_works`, as a function of the stored
first volume and the stripped colliding volume. -/
def collideVol (stored rawNew : Str) : Str :=
  let old_vol := pyStrip stored
  if rawNew.isEmpty then stored
  else
    match volParse rawNew with
    | none => if old_vol.isEmpty then rawNew else stored
    | some v_new =>
      match (if old_vol.isEmpty then some (0 : Q) else volParse old_vol) with
      | none => stored
      | some v_old => formatTotal (Q.add v_new v_old)

/-- `key in aggregated` plus `aggregated[key]`. -/
def wFind : List ((Str × Str) × WEntry) → (Str × Str) → Option WEntry
  | [], _ => none
  | (k, v) :: rest, key => if k = key then some v else wFind rest key

/-- `aggregated[key] = ...` / in-place update of `existing`. -/
def wSet : List ((Str × Str) × WEntry) → (Str × Str) → WEntry → List ((Str × Str) × WEntry)
  | [], key, v => [(key, v)]
  | (k, v') :: rest, key, v =>
    if k = key then (key, v) :: rest else (k, v') :: wSet rest key v

/-- One iteration of the `for w in works` deduplication loop of
`extract_works` (generate_report.py lines 199-224). -/
def aggStep (acc : List ((Str × Str) × WEntry)) (w : WEntry) : List ((Str × Str) × WEntry) :=
  let name := pyStrip w.name
  let unit := pyStrip w.unit
  let volume_raw := pyStrip w.volume
  let key := (name, unit)
  match wFind acc key with
  | none => acc ++ [(key, ⟨name, volume_raw, unit⟩)]
  | some existing =>
    let old_vol := pyStrip existing.volume
    if volume_raw.isEmpty then acc
    else
      match volParse volume_raw with
      | none => if old_vol.isEmpty then wSet acc key { existing with volume := volume_raw } else acc
      | some v_new =>
        match (if old_vol.isEmpty then some (0 : Q) else volParse old_vol) with
        | none => acc
        | some v_old => wSet acc key { existing with volume := formatTotal (Q.add v_new v_old) }

/-- The deduplication stage of `extract_works`: the loop above over the
collected entries, then `list(aggregated.values())`. -/
def aggregate_works (works : List WEntry) : List WEntry :=
  (works.foldl aggStep []).map Prod.snd

theorem wFind_none_not_mem (acc : List ((Str × Str) × WEntry)) (k : Str × Str)
    (h : wFind acc k = none) : ∀ p ∈ acc, p.1 ≠ k := by
  induction acc with
  | nil => intro p hp; cases hp
  | cons q rest IH =>
    obtain ⟨k0, v0⟩ := q
    intro p hp
    rcases List.mem_cons.mp hp with rfl | hmem
    · intro hk
      simp only [wFind] at h
      rw [if_pos hk] at h
      cases h
    · by_cases hk0 : k0 = k
      · simp only [wFind] at h
        rw [if_pos hk0] at h
        cases h
      · simp only [wFind] at h
        rw [if_neg hk0] at h
        exact IH h p hmem

theorem wFind_some_mem (acc : List ((Str × Str) × WEntry)) (k : Str × Str) (e : WEntry)
    (h : wFind acc k = some e) : (k, e) ∈ acc := by
  induction acc with
  | nil => cases h
  | cons q rest IH =>
    obtain ⟨k0, v0⟩ := q
    by_cases hk0 : k0 = k
    · simp only [wFind] at h
      rw [if_pos hk0] at h
      cases h
      exact hk0 ▸ List.mem_cons_self _ _
    · simp only [wFind] at h
      rw [if_neg hk0] at h
      exact List.mem_cons_of_mem _ (IH h)

theorem wSet_mem (acc : List ((Str × Str) × WEntry)) (k : Str × Str) (v : WEntry) :
    ∀ p ∈ wSet acc k v, p = (k, v) ∨ p ∈ acc := by
  induction acc with
  | nil =>
    intro p hp
    simp only [wSet] at hp
    rcases List.mem_cons.mp hp with rfl | hmem
    · exact Or.inl rfl
    · cases hmem
  | cons q rest IH =>
    obtain ⟨k0, v0⟩ := q
    intro p hp
    by_cases hk0 : k0 = k
    · simp only [wSet] at hp
      rw [if_pos hk0] at hp
      rcases List.mem_cons.mp hp with rfl | hmem
      · exact Or.inl rfl
      · exact Or.inr (List.mem_cons_of_mem _ hmem)
    · simp only [wSet] at hp
      rw [if_neg hk0] at hp
      rcases List.mem_cons.mp hp with rfl | hmem
      · exact Or.inr (List.mem_cons_self _ _)
      · rcases IH p hmem with h | h
        · exact Or.inl h
        · exact Or.inr (List.mem_cons_of_mem _ h)

theorem wSet_keys (acc : List ((Str × Str) × WEntry)) (k : Str × Str) (v e : WEntry)
    (h : wFind acc k = some e) :
    (wSet acc k v).map Prod.fst = acc.map Prod.fst := by
  induction acc with
  | nil => cases h
  | cons q rest IH =>
    obtain ⟨k0, v0⟩ := q
    by_cases hk0 : k0 = k
    · subst hk0
      unfold wSet
      rw [if_pos rfl]
      simp only [List.map_cons]
    · simp only [wFind] at h
      rw [if_neg hk0] at h
      simp only [wSet]
      rw [if_neg hk0]
      simp only [List.map_cons, IH h]

/-- The loop invariant of the aggregation dict: keys are pairwise
distinct (CPython dict) and each stored entry carries its key's
(name, unit). -/
def WInv (acc : List ((Str × Str) × WEntry)) : Prop :=
  (acc.map Prod.fst).Nodup ∧ ∀ p ∈ acc, p.1 = (p.2.name, p.2.unit)

theorem WInv_wSet (acc : List ((Str × Str) × WEntry)) (k : Str × Str) (existing v' : WEntry)
    (h : WInv acc) (hf : wFind acc k = some existing)
    (hnm : v'.name = existing.name) (hun : v'.unit = existing.unit) :
    WInv (wSet acc k v') := by
  obtain ⟨hn, hp⟩ := h
  refine ⟨by rw [wSet_keys acc k v' existing hf]; exact hn, ?_⟩
  intro p hmem
  rcases wSet_mem acc k v' p hmem with hh | hh
  · subst hh
    have hk := hp (k, existing) (wFind_some_mem acc k existing hf)
    simp only at hk
    rw [hk, hnm, hun]
  · exact hp p hh

theorem WInv_aggStep (acc : List ((Str × Str) × WEntry)) (w : WEntry)
    (h : WInv acc) : WInv (aggStep acc w) := by
  obtain ⟨hn, hp⟩ := h
  simp only [aggStep]
  split
  next hf =>
    constructor
    · rw [List.map_append]
      refine List.Nodup.append hn (by simp) ?_
      intro a ha hb
      simp only [List.map_cons, List.map_nil, List.mem_singleton] at hb
      obtain ⟨p, hpmem, hpa⟩ := List.mem_map.mp ha
      exact wFind_none_not_mem acc _ hf p hpmem (hpa.trans hb)
    · intro p hmem
      rcases List.mem_append.mp hmem with h1 | h2
      · exact hp p h1
      · simp only [List.mem_singleton] at h2
        subst h2
        rfl
  next existing hf =>
    by_cases hve : (pyStrip w.volume).isEmpty = true
    · rw [if_pos hve]; exact ⟨hn, hp⟩
    · rw [if_neg hve]
      split
      next hvp =>
        by_cases hoe : (pyStrip existing.volume).isEmpty = true
        · rw [if_pos hoe]
          exact WInv_wSet acc _ existing _ ⟨hn, hp⟩ hf rfl rfl
        · rw [if_neg hoe]; exact ⟨hn, hp⟩
      next vnew hvp =>
        split
        next => exact ⟨hn, hp⟩
        next vold hvold =>
          exact WInv_wSet acc _ existing _ ⟨hn, hp⟩ hf rfl rfl

theorem WInv_foldl (ws : List WEntry) :
    ∀ acc, WInv acc → WInv (List.foldl aggStep acc ws) := by
  induction ws with
  | nil => intro acc h; exact h
  | cons w rest IH => intro acc h; exact IH _ (WInv_aggStep acc w h)

theorem aggStep_collide (k : Str × Str) (e w : WEntry)
    (hk : (pyStrip w.name, pyStrip w.unit) = k) :
    aggStep [(k, e)] w = [(k, { e with volume := collideVol e.volume (pyStrip w.volume) })] := by
  subst hk
  have hf : wFind [((pyStrip w.name, pyStrip w.unit), e)] (pyStrip w.name, pyStrip w.unit)
      = some e := by
    unfold wFind
    exact if_pos rfl
  have hws : ∀ v : WEntry, wSet [((pyStrip w.name, pyStrip w.unit), e)]
      (pyStrip w.name, pyStrip w.unit) v = [((pyStrip w.name, pyStrip w.unit), v)] := by
    intro v
    unfold wSet
    rw [if_pos rfl]
  simp only [aggStep, collideVol, hf]
  by_cases hve : (pyStrip w.volume).isEmpty = true
  · simp only [if_pos hve]
  · simp only [if_neg hve]
    cases hvp : volParse (pyStrip w.volume) with
    | none =>
      by_cases hoe : (pyStrip e.volume).isEmpty = true
      · simp only [if_pos hoe, hws]
      · simp only [if_neg hoe]
    | some vnew =>
      by_cases hoe : (pyStrip e.volume).isEmpty = true
      · simp only [if_pos hoe, hws]
      · simp only [if_neg hoe]
        cases hvo : volParse (pyStrip e.volume) with
        | none => rfl
        | some vold => simp only [hws]

/-- C7 counterexample: colliding entries ("x", "", "") and ("x", "07", "")
do not keep the first non-empty volume "07"; the loop parses "07" as 7.0,
treats the empty first volume as 0.0, and stores the reformatted sum "7". -/
theorem C7_counterexample :
    aggregate_works [⟨str "x", str "", str ""⟩, ⟨str "x", str "07", str ""⟩]
      ≠ [⟨str "x", str "07", str ""⟩] ∧
    aggregate_works [⟨str "x", str "", str ""⟩, ⟨str "x", str "07", str ""⟩]
      = [⟨str "x", str "7", str ""⟩] := by decide

/-- C7 (amended). The aggregation loop of `extract_works` deduplicates by
the trimmed (name, unit) key: every output list has pairwise-distinct
keys; two colliding entries produce the single entry whose volume is
`collideVol` of the two trimmed volumes (sum reformatted when the second
parses and the first parses or is empty; the first value kept when the
first is non-empty and either side fails to parse; the raw second value
only when the first is empty and the second unparseable); in particular
("Бетонные работы", "100", "м3") and ("Бетонные работы", "50", "м3")
aggregate to a single entry with volume "150". -/
theorem C7_works_dedup :
    (∀ ws : List WEntry,
        (aggregate_works ws).Pairwise (fun a b => (a.name, a.unit) ≠ (b.name, b.unit))) ∧
    (∀ w1 w2 : WEntry,
        (pyStrip w2.name, pyStrip w2.unit) = (pyStrip w1.name, pyStrip w1.unit) →
        aggregate_works [w1, w2]
          = [⟨pyStrip w1.name, collideVol (pyStrip w1.volume) (pyStrip w2.volume),
              pyStrip w1.unit⟩]) ∧
    aggregate_works [⟨str "Бетонные работы", str "100", str "м3"⟩,
        ⟨str "Бетонные работы", str "50", str "м3"⟩]
      = [⟨str "Бетонные работы", str "150", str "м3"⟩] := by
  refine ⟨?_, ?_, by decide⟩
  · intro ws
    obtain ⟨hn, hp⟩ := WInv_foldl ws [] ⟨List.nodup_nil, by intro p hp; cases hp⟩
    unfold aggregate_works
    rw [List.pairwise_map]
    have hn' := List.pairwise_map.mp hn
    refine List.Pairwise.imp_of_mem ?_ hn'
    intro a b ha hb hne
    rw [← hp a ha, ← hp b hb]
    exact hne
  · intro w1 w2 hkey
    show ((aggStep (aggStep [] w1) w2).map Prod.snd) = _
    have h1 : aggStep [] w1 = [((pyStrip w1.name, pyStrip w1.unit),
        ⟨pyStrip w1.name, pyStrip w1.volume, pyStrip w1.unit⟩)] := rfl
    rw [h1, aggStep_collide _ _ _ hkey]
    rfl

theorem C7_works_dedup_witness :
    (pyStrip (str "Бетонные работы"), pyStrip (str "м3"))
      = (pyStrip (str "Бетонные работы"), pyStrip (str "м3")) ∧
    aggregate_works [⟨str "Бетонные работы", str "100", str "м3"⟩,
        ⟨str "Бетонные работы", str "50", str "м3"⟩]
      = [⟨pyStrip (str "Бетонные работы"),
          collideVol (pyStrip (str "100")) (pyStrip (str "50")),
          pyStrip (str "м3")⟩] :=
  ⟨rfl, C7_works_dedup.2.1 ⟨str "Бетонные работы", str "100", str "м3"⟩
      ⟨str "Бетонные работы", str "50", str "м3"⟩ rfl⟩

/- ============== _fallback_parse / _postprocess_fields (C9) ============== -/

/-- Regex `\d` on the ASCII digits appearing in these documents. -/
def isDigCh (c : Char) : Bool := '0' ≤ c && c ≤ '9'

/-- Letter of the alphabets appearing in these documents (ASCII and
Cyrillic), the letter part of regex `\w`. -/
def isAlphaCh (c : Char) : Bool :=
  ('a' ≤ c && c ≤ 'z') || ('A' ≤ c && c ≤ 'Z') ||
  (1040 ≤ c.toNat && c.toNat ≤ 1103) || c.toNat = 1025 || c.toNat = 1105

/-- Regex `\w` (letters, digits, underscore). -/
def isWordCh (c : Char) : Bool := isDigCh c || isAlphaCh c || c = '_'

/-- `re.findall(r"\b\d{lo,hi}\b", s)`: the maximal digit runs whose
length lies in `[lo, hi]` and whose neighbors are absent or non-word
(a longer run admits no sub-match, the fixed-width `\b` cannot sit
between two digits). Fuel is the remaining length, an iteration bound. -/
def digitRunsGo (lo hi : Nat) : Nat → Option Char → Str → List Str
  | 0, _, _ => []
  | _ + 1, _, [] => []
  | fuel + 1, prev, c :: rest =>
    if isDigCh c then
      let run := c :: rest.takeWhile isDigCh
      let rest' := rest.drop (run.length - 1)
      let prevOk := match prev with | none => true | some p => !isWordCh p
      let nextOk := match rest' with | [] => true | d :: _ => !isWordCh d
      (if lo ≤ run.length && run.length ≤ hi && prevOk && nextOk then [run] else [])
        ++ digitRunsGo lo hi fuel (some c) rest'
    else
      digitRunsGo lo hi fuel (some c) rest

def digitRuns (lo hi : Nat) (s : Str) : List Str := digitRunsGo lo hi s.length none s

/-- Character class `[\d\s\.,]` of the volume group. -/
def volCh (c : Char) : Bool := isDigCh c || pyIsSpace c || c = '.' || c = ','

/-- The ordered unit alternation of the works pattern of
`_fallback_parse`. -/
def worksUnits : List Str :=
  [str "шт", str "штук", str "м2", str "м3", str "м³", str "м", str "тонн",
   str "т", str "кг", str "литр", str "л", str "ед", str "упак", str "компл",
   str "пог.м", str "п.м."]

/-- The goods pattern's alternation: the same list without the two
trailing length units. -/
def goodsUnits : List Str := worksUnits.take 14

/-- First alternative matching at the head of `t`, case-insensitively;
returns the original slice (regex alternation is ordered). -/
def altUnit : List Str → Str → Option Str
  | [], _ => none
  | u :: us, t =>
    if u.length ≤ t.length && pyLower (t.take u.length) = u then some (t.take u.length)
    else altUnit us t

/-- `\s*(unit)` at `t`: the star is greedy, backtracking from the
longest whitespace run. -/
def wsStarUnitGo (units : List Str) (t : Str) : Nat → Option Str
  | 0 => altUnit units t
  | k + 1 =>
    match altUnit units (t.drop (k + 1)) with
    | some u => some u
    | none => wsStarUnitGo units t k

def wsStarUnit (units : List Str) (t : Str) : Option Str :=
  wsStarUnitGo units t (t.takeWhile pyIsSpace).length

/-- `([\d\s\.,]+)\s*(unit)` at `t`: the volume group is greedy with
backtracking, at least one character. Returns (volume, unit). -/
def volThenUnitGo (units : List Str) (t : Str) : Nat → Option (Str × Str)
  | 0 => none
  | j + 1 =>
    match wsStarUnit units (t.drop (j + 1)) with
    | some u => some (t.take (j + 1), u)
    | none => volThenUnitGo units t j

def volThenUnit (units : List Str) (t : Str) : Option (Str × Str) :=
  volThenUnitGo units t (t.takeWhile volCh).length

/-- `\s+` then the volume/unit tail, the plus greedy with backtracking. -/
def wsPlusVolGo (units : List Str) (t : Str) : Nat → Option (Str × Str)
  | 0 => none
  | m + 1 =>
    match volThenUnit units (t.drop (m + 1)) with
    | some r => some r
    | none => wsPlusVolGo units t m

def wsPlusVol (units : List Str) (t : Str) : Option (Str × Str) :=
  wsPlusVolGo units t (t.takeWhile pyIsSpace).length

/-- `re.search` of `(.+?)\s+([\d\s\.,]+)\s*(unit)` on a line: the lazy
head group grows from one character; since it absorbs any prefix (the
scanned lines contain no newline), the leftmost match always starts at
position 0. Returns (group 1, group 2, group 3) untrimmed. -/
def unitsMatchGo (units : List Str) (t : Str) : Nat → Nat → Option (Str × Str × Str)
  | 0, _ => none
  | fuel + 1, k =>
    match wsPlusVol units (t.drop k) with
    | some (vol, u) => some (t.take k, vol, u)
    | none => unitsMatchGo units t fuel (k + 1)

def unitsMatch (units : List Str) (t : Str) : Option (Str × Str × Str) :=
  unitsMatchGo units t t.length 1

/-- `re.sub(r"\s+", " ", s)`. Fuel bounds the iterations by the length. -/
def collapseWsGo : Nat → Str → Str
  | 0, _ => []
  | _ + 1, [] => []
  | fuel + 1, c :: rest =>
    if pyIsSpace c then ' ' :: collapseWsGo fuel (rest.dropWhile pyIsSpace)
    else c :: collapseWsGo fuel rest

def collapseWs (s : Str) : Str := collapseWsGo s.length s

/-- Sentence punctuation `[.!?]`. -/
def isSentP (c : Char) : Bool := c = '.' || c = '!' || c = '?'

/-- `re.split(r"[.!?]+\s", s)`: a separator is a maximal punctuation run
followed by one whitespace character (a shorter sub-run is followed by
punctuation, so `\s` fails there). -/
def splitSentGo : Nat → Str → Str → List Str
  | 0, acc, _ => [acc.reverse]
  | _ + 1, acc, [] => [acc.reverse]
  | fuel + 1, acc, c :: rest =>
    if isSentP c then
      let run := c :: rest.takeWhile isSentP
      let rest' := rest.drop (run.length - 1)
      match rest' with
      | w :: rest'' =>
        if pyIsSpace w then acc.reverse :: splitSentGo fuel [] rest''
        else splitSentGo fuel (run.reverse ++ acc) rest'
      | [] => splitSentGo fuel (run.reverse ++ acc) []
    else
      splitSentGo fuel (c :: acc) rest

def splitSent (s : Str) : List Str := splitSentGo s.length [] s

/-- `s.split(":", 1)[-1]`: the part after the first colon, or the whole
string when there is none. -/
def afterColon1 (s : Str) : Str := go s
where
  go : Str → Str
  | [] => s
  | c :: rest => if c = ':' then rest else go rest

/-- `s.split(" ", 1)[1]`: the part after the first space. In Python the
access raises IndexError when no space occurs; that branch is never
reached below and is modelled by the empty string. -/
def afterFirstSpace : Str → Str
  | [] => []
  | c :: rest => if c = ' ' then rest else afterFirstSpace rest

/-- `title.strip().rstrip(" .")`'s second stage. -/
def rstripDotSp (s : Str) : Str :=
  (s.reverse.dropWhile (fun c => c = ' ' || c = '.')).reverse

/-- The title keyword scan over the first 20 lines, falling back to the
first line. -/
def titleScan (lines : List Str) : Str :=
  match (lines.take 20).find? (fun ln =>
      [str "поставка", str "оказание услуг", str "оказание услуги",
       str "выполнение работ", str "строитель", str "ремонт"].any
        (fun w => strContains (pyLower ln) w)) with
  | some ln => ln
  | none => lines.headD []

/-- The customer scan: one pass over the lines accumulating
(name, inn, kpp, ogrn, contacts). -/
def custScan (lines : List Str) : Str × Str × Str × Str × Str :=
  lines.foldl (fun st ln =>
    let (nm, inn, kpp, ogrn, cts) := st
    let low := pyLower ln
    let nm := if nm.isEmpty && strStarts low (str "заказчик")
      then pyStrip (afterColon1 ln) else nm
    let inn := if strContains low (str "инн") && inn.isEmpty
      then (digitRuns 10 12 ln).headD inn else inn
    let kpp := if strContains low (str "кпп") && kpp.isEmpty
      then (digitRuns 9 9 ln).headD kpp else kpp
    let ogrn := if strContains low (str "огрн") && ogrn.isEmpty
      then (digitRuns 13 13 ln).headD ogrn else ogrn
    let cts := if strContains low (str "тел") || strContains low (str "email")
        || strContains low (str "почт") then ln else cts
    (nm, inn, kpp, ogrn, cts)) ([], [], [], [], [])

/-- The object scan: (name, address), each overwritten on every hit. -/
def objScan (lines : List Str) : Str × Str :=
  lines.foldl (fun st ln =>
    let (onm, oaddr) := st
    let low := pyLower ln
    let onm := if strStarts low (str "объект") then pyStrip (afterColon1 ln) else onm
    let oaddr := if strContains low (str "место постав") || strContains low (str "адрес")
      then (if strContains ln (str ":") then pyStrip (afterColon1 ln) else oaddr)
      else oaddr
    (onm, oaddr)) ([], [])

/-- Works rows harvested by the works pattern. -/
def worksOfLines (lines : List Str) : List JVal :=
  lines.foldr (fun ln acc =>
    match unitsMatch worksUnits ln with
    | none => acc
    | some (nm, vol, u) =>
      .obj [(str "name", .s (pyStrip nm)), (str "volume", .s (pyStrip vol)),
            (str "unit", .s u), (str "materials", .s []), (str "equipment", .s []),
            (str "location", .s []), (str "notes", .s [])] :: acc) []

/-- Goods rows harvested by the goods pattern. -/
def goodsOfLines (lines : List Str) : List JVal :=
  lines.foldr (fun ln acc =>
    match unitsMatch goodsUnits ln with
    | none => acc
    | some (nm, qty, u) =>
      .obj [(str "name", .s (pyStrip nm)), (str "description", .s []),
            (str "brand", .s []), (str "model", .s []), (str "certificates", .s []),
            (str "quantity", .s (pyStrip qty)), (str "unit", .s u),
            (str "requirements", .s [])] :: acc) []

/-- Rows `lines[i+1 : min(len(lines), i+20)]` scanned for the first one
with a short number; its last match is taken. -/
def qtyInner (rows : List Str) : Option Str :=
  rows.findSome? (fun row => (digitRuns 1 6 row).getLast?)

/-- The "Количество, шт" special case (section 6.1 of `_fallback_parse`):
returns (qty, unit_hint). The first branch takes the last 1-6 digit
number of a line holding "количество" and a unit word; when it finds no
number, the same iteration may still fire the lookahead branch, which
scans the following 19 lines for the first short number. -/
def qtyScanGo (all : List Str) : Nat → Nat → Str → Str × Str
  | 0, _, hint => ([], hint)
  | fuel + 1, i, hint =>
    match all.drop i with
    | [] => ([], hint)
    | ln :: _ =>
      let low := pyLower ln
      let second : Str → Str × Str := fun h =>
        if strContains low (str "количество, шт") then
          match qtyInner ((all.drop (i + 1)).take (min all.length (i + 20) - (i + 1))) with
          | some q => (q, str "шт")
          | none => ([], h)
        else qtyScanGo all fuel (i + 1) h
      if strContains low (str "количество") &&
         (strContains low (str "шт") || strContains low (str "штук") ||
          strContains low (str "ед") || strContains low (str "компл")) then
        let hint := if strContains low (str "шт") || strContains low (str "штук")
          then str "шт" else hint
        match (digitRuns 1 6 ln).getLast? with
        | some q => (q, hint)
        | none => second hint
      else second hint

def qtyScan (lines : List Str) : Str × Str := qtyScanGo lines lines.length 0 []

/-- String content of a string value, else empty (call sites only see
strings or empty defaults). -/
def asStrD : JVal → Str
  | .s s => s
  | _ => []

/-- The Python idiom `(v or "")` followed by a string method: the value
when truthy, else the empty string (a truthy non-string would raise at
the call sites, which only ever receive strings here). -/
def orEmptyStr (v : JVal) : Str := if truthy v then asStrD v else []

/-- Dict write through a JVal. -/
def setKeyJ (d : JVal) (k : Str) (v : JVal) : JVal := .obj (setKey (asObjD d) k v)

/-- In-place update of a nested dict entry. -/
def updJ (d : JVal) (k : Str) (f : JVal → JVal) : JVal :=
  setKeyJ d k (f (getD (asObjD d) k))

/-- The quantity attachment of section 6.1: prefer the first goods item
whose name mentions piles, else the last one, and set its quantity; an
empty unit becomes the hint or "шт". -/
def goodsAttach (items : List JVal) (q hint : Str) : List JVal :=
  if q.isEmpty || items.isEmpty then items
  else
    let tidx :=
      match items.findIdx? (fun g => isObj g &&
        (let nm := pyLower (orEmptyStr (getD (asObjD g) (str "name")))
         strContains nm (str "сваи") || strContains nm (str "свая") ||
         strContains nm (str "свай"))) with
      | some j => j
      | none => items.length - 1
    let g := items.getD tidx .null
    let kvs := setKey (asObjD g) (str "quantity") (.s q)
    let g' := if truthy (getD kvs (str "unit")) then JVal.obj kvs
      else JVal.obj (setKey kvs (str "unit") (.s (if hint.isEmpty then str "шт" else hint)))
    items.set tidx g'

/-- Function `_fallback_parse(text)` of ai_services.py. -/
def fallback_parse (text : Str) : JVal :=
  let lines := ((splitLines text).map pyStrip).filter (fun l => !l.isEmpty)
  let title := rstripDotSp (pyStrip (titleScan lines))
  let description :=
    if text.isEmpty then []
    else
      let clean := collapseWs (List.intercalate [' '] (lines.take 50))
      let sentences := splitSent clean
      if 3 ≤ sentences.length then List.intercalate (str ". ") (sentences.take 3)
      else clean.take 600
  let (cnm, cinn, ckpp, cogrn, ccts) := custScan lines
  let (onm0, oaddr) := objScan lines
  let onm := if onm0.isEmpty then title else onm0
  let works := worksOfLines lines
  let (q, hint) := qtyScan lines
  let goods := goodsAttach (goodsOfLines lines) q hint
  let r := UNIFIED_TENDER_SCHEMA
  let r := setKeyJ r (str "title") (.s title)
  let r := setKeyJ r (str "description") (.s description)
  let r := updJ r (str "customer") (fun c =>
    setKeyJ (setKeyJ (setKeyJ (setKeyJ (setKeyJ (setKeyJ c
      (str "name") (.s cnm)) (str "inn") (.s cinn)) (str "kpp") (.s ckpp))
      (str "ogrn") (.s cogrn)) (str "address") (.s [])) (str "contacts") (.s ccts))
  let r := updJ r (str "object") (fun o =>
    setKeyJ (setKeyJ o (str "name") (.s onm)) (str "address") (.s oaddr))
  let r := updJ r (str "technical") (fun t =>
    updJ t (str "works") (fun w => setKeyJ w (str "works_list") (.arr works)))
  let r := updJ r (str "goods") (fun g => setKeyJ g (str "items") (.arr goods))
  updJ r (str "analysis_meta") (fun m =>
    setKeyJ (setKeyJ m (str "fallback_used") (.b true))
      (str "fallback_reason") (.s (str "base_fallback")))

/-- Uppercase of one character (`rest[:1].upper()`), for the alphabets
appearing here. -/
def upperCh (c : Char) : Char :=
  if 'a' ≤ c && c ≤ 'z' then Char.ofNat (c.toNat - 32)
  else if 1072 ≤ c.toNat && c.toNat ≤ 1103 then Char.ofNat (c.toNat - 32)
  else if c.toNat = 1105 then Char.ofNat 1025
  else c

/-- `re.search(r"на\s+(.+)", t, re.IGNORECASE)`: group 1 of the first
"на" followed by whitespace; the greedy tail runs to the end (the titles
scanned here contain no newline). When nothing follows the whitespace
run, the group backtracks into the run's last character. -/
def naTailGo (t : Str) : Nat → Str → Option Str
  | 0, _ => none
  | _ + 1, [] => none
  | fuel + 1, s@(_ :: rest) =>
    if strStarts (pyLower s) (str "на") then
      let tail2 := s.drop 2
      let wsn := (tail2.takeWhile pyIsSpace).length
      if wsn = 0 then naTailGo t fuel rest
      else
        let after := tail2.drop wsn
        if !after.isEmpty then some after
        else if 2 ≤ wsn then some (tail2.drop (wsn - 1))
        else naTailGo t fuel rest
    else naTailGo t fuel rest

def naTail (t : Str) : Option Str := naTailGo t t.length t

/-- Function `_beautify_title(title)` of ai_services.py. -/
def beautify_title (title : Str) : Str :=
  let t := pyStrip title
  if t.isEmpty then []
  else
    let low := pyLower t
    let t := if strStarts low (str "техническое задание") then
        match naTail t with
        | some g => pyStrip g
        | none => t
      else t
    let low := pyLower t
    let t :=
      if strStarts low (str "на ") then
        let rest := pyStrip (t.drop 3)
        let rlow := pyLower rest
        if strStarts rlow (str "поставк") then str "Поставка " ++ afterFirstSpace rest
        else if strStarts rlow (str "оказан") then str "Оказание " ++ afterFirstSpace rest
        else if strStarts rlow (str "выполн") then str "Выполнение " ++ afterFirstSpace rest
        else match rest with
          | [] => []
          | c :: cs => upperCh c :: cs
      else t
    let t := pyStrip (t.dropWhile (fun c => isDigCh c || c = '.' || c = ')' || pyIsSpace c))
    t.take 200

/-- `\+7\d{10}` somewhere in the string. -/
def plus7match : Str → Bool
  | [] => false
  | c :: rest =>
    (c = '+' && strStarts rest (str "7") && 10 ≤ ((rest.drop 1).takeWhile isDigCh).length)
    || plus7match rest

/-- Helper `_looks_like_contacts(s)` of `_postprocess_fields`. -/
def looks_like_contacts (s : Str) : Bool :=
  if s.isEmpty then false
  else
    let low := pyLower s
    if strContains low (str "тел") || strContains low (str "phone") ||
       strContains low (str "факс") || strContains low (str "e-mail") ||
       strContains low (str "email") then true
    else if strContains low (str "@") then true
    else if plus7match low || (digitRuns 11 11 low).any (fun r => strStarts r (str "8"))
      then true
    else false

/-- Helper `_trim(v, 260)`: strip, and truncate over-long values to 257
right-stripped characters plus an ellipsis. -/
def trim260 (s : Str) : Str :=
  let v := pyStrip s
  if v.length ≤ 260 then v
  else ((v.take 257).reverse.dropWhile pyIsSpace).reverse ++ str "..."

/-- `d.setdefault(k, v)`. -/
def setdefaultJ (d : JVal) (k : Str) (v : JVal) : JVal :=
  if hasKeyT (asObjD d) k then d else setKeyJ d k v

/-- The customer fill block of `_postprocess_fields` (the source repeats
it verbatim twice): copy the fallback's name/address into empty model
fields. -/
def custFill (td fb : JVal) : JVal :=
  let cust := let c := getD (asObjD td) (str "customer"); if truthy c then c else .obj []
  let fbc := let c := getD (asObjD fb) (str "customer"); if truthy c then c else .obj []
  let mname := pyStrip (orEmptyStr (getD (asObjD cust) (str "name")))
  let fname := pyStrip (orEmptyStr (getD (asObjD fbc) (str "name")))
  let maddr := pyStrip (orEmptyStr (getD (asObjD cust) (str "address")))
  let faddr := pyStrip (orEmptyStr (getD (asObjD fbc) (str "address")))
  let cust := if mname.isEmpty && !fname.isEmpty then setKeyJ cust (str "name") (.s fname) else cust
  let cust := if maddr.isEmpty && !faddr.isEmpty then setKeyJ cust (str "address") (.s faddr) else cust
  setKeyJ td (str "customer") cust

/-- Function `_postprocess_fields(tender_data, fallback_data)` of
ai_services.py. -/
def postprocess_fields (td0 fb : JVal) : JVal :=
  let model_title := pyStrip (orEmptyStr (getD (asObjD td0) (str "title")))
  let fb_title := pyStrip (orEmptyStr (getD (asObjD fb) (str "title")))
  let td := setKeyJ td0 (str "title")
    (.s (if !model_title.isEmpty then beautify_title model_title
         else if !fb_title.isEmpty then beautify_title fb_title else []))
  let obj := let o := getD (asObjD td) (str "object"); if truthy o then o else .obj []
  let model_obj_name := pyStrip (orEmptyStr (getD (asObjD obj) (str "name")))
  let fb_obj := let o := getD (asObjD fb) (str "object"); if truthy o then o else .obj []
  let fb_obj_name := pyStrip (orEmptyStr (getD (asObjD fb_obj) (str "name")))
  let obj := setKeyJ obj (str "name")
    (.s (if !model_obj_name.isEmpty then beautify_title model_obj_name
         else if !fb_obj_name.isEmpty then beautify_title fb_obj_name else []))
  let td := setKeyJ td (str "object") obj
  let td := custFill td fb
  let td := setdefaultJ td (str "customer") (.obj [])
  let td := custFill td fb
  let fb_contacts := pyStrip (orEmptyStr
    (getD (asObjD (getD (asObjD fb) (str "customer"))) (str "contacts")))
  let llm_contacts := pyStrip (orEmptyStr
    (getD (asObjD (getD (asObjD td) (str "customer"))) (str "contacts")))
  let td := setdefaultJ td (str "customer") (.obj [])
  let td := updJ td (str "customer") (fun c => setKeyJ c (str "contacts")
    (.s (if looks_like_contacts llm_contacts then llm_contacts
         else if looks_like_contacts fb_contacts then fb_contacts else [])))
  let td := setKeyJ td (str "description")
    (.s (trim260 (orEmptyStr (getD (asObjD td) (str "description")))))
  let td := updJ td (str "customer") (fun c => setKeyJ c (str "name")
    (.s (trim260 (orEmptyStr (getD (asObjD (getD (asObjD td) (str "customer"))) (str "name"))))))
  let td := updJ td (str "customer") (fun c => setKeyJ c (str "address")
    (.s (trim260 (orEmptyStr (getD (asObjD (getD (asObjD td) (str "customer"))) (str "address"))))))
  updJ td (str "object") (fun o => setKeyJ o (str "address")
    (.s (trim260 (orEmptyStr (getD (asObjD (getD (asObjD td) (str "object"))) (str "address"))))))

/-- The `use_llm=False` path of `analyze_text` up to field cleanup:
normalize the fallback parse to the schema, then `_postprocess_fields`.
The subsequent steps only stamp `analysis_meta.user_city` and fill
`market_analysis` (`_apply_market_analysis` writes no other key), so the
fields inspected below are final. -/
def fallback_pipeline (text : Str) : JVal :=
  let fb := fallback_parse text
  postprocess_fields (normalize_to_schema fb) fb

/-- The end-to-end scenario text of the specification. -/
def c9text : Str :=
  str "Техническое задание на поставку свай винтовых. Заказчик: ООО Ромашка. ИНН 1234567890. Количество, шт\n150"

/-- C9 counterexample: on the scenario text the heuristic path yields a
title that does not start with "Поставка свай", an empty customer.name
(not "ООО Ромашка"), and no goods item at all, so no goods quantity
"150". -/
theorem C9_counterexample :
    strStarts (orEmptyStr (getD (asObjD (fallback_pipeline c9text)) (str "title")))
      (str "Поставка свай") = false ∧
    getD (asObjD (getD (asObjD (fallback_pipeline c9text)) (str "customer"))) (str "name")
      ≠ .s (str "ООО Ромашка") ∧
    getD (asObjD (getD (asObjD (fallback_pipeline c9text)) (str "goods"))) (str "items")
      = .arr [] := by decide

/-- C9 (amended). On the scenario text the heuristic (no-LLM) path
produces title "поставку свай винтовых. Заказчик: ООО Ромашка. ИНН
1234567890. Количество, шт": the техническое-задание branch of
`_beautify_title` hands over everything after the first "на " and no
later branch recapitalizes it. customer.name is empty, because the
customer scanner only fires on lines that start with "заказчик" and the
marker sits mid-line here. customer.inn = "1234567890" is extracted.
goods.items is empty - the row pattern matches neither line, and the
quantity "150" found by the "Количество, шт" lookahead is discarded
because there is no goods item to attach it to. -/
theorem C9_heuristic_scenario :
    getD (asObjD (fallback_pipeline c9text)) (str "title")
      = .s (str "поставку свай винтовых. Заказчик: ООО Ромашка. ИНН 1234567890. Количество, шт") ∧
    getD (asObjD (getD (asObjD (fallback_pipeline c9text)) (str "customer"))) (str "name")
      = .s [] ∧
    getD (asObjD (getD (asObjD (fallback_pipeline c9text)) (str "customer"))) (str "inn")
      = .s (str "1234567890") ∧
    getD (asObjD (getD (asObjD (fallback_pipeline c9text)) (str "goods"))) (str "items")
      = .arr [] := by decide

/- ===================== analyze_text (C10) ===================== -/

/-- The heuristic-only result assembly shared by the no-LLM branches of
`analyze_text` (steps 2 and 3): normalize the fallback parse, postprocess,
stamp the user city. -/
def fallbackAssemble (fallback_data : JVal) (user_city : Str) : JVal :=
  let td := postprocess_fields (normalize_to_schema fallback_data) fallback_data
  let td := setdefaultJ td (str "analysis_meta") (.obj [])
  updJ td (str "analysis_meta") (fun m => setKeyJ m (str "user_city") (.s user_city))

/-- Function `analyze_text(text, user_city, use_llm)` of ai_services.py
up to JSON serialization (the caller receives `json.dumps` of the
returned record). External effects are parameters: `callChunk` is the
provider when one is configured, mapping a chunk to the dict that
`_call_llm_chunk` parses out of the LLM reply (`none` for a failed
chunk); `market` is `_apply_market_analysis`, which only fills
`tender["market_analysis"]`. The second component records whether any
LLM chunk call was issued. -/
def analyzeText (callChunk : Option (Str → Option JVal)) (market : JVal → JVal)
    (text : Str) (user_city : Str) (use_llm : Bool) : JVal × Bool :=
  if text.isEmpty then (UNIFIED_TENDER_SCHEMA, false)
  else
    let fallback_data := fallback_parse text
    let use_llm := use_llm && !(decide (60000 < text.length))
    if use_llm = false then
      (market (fallbackAssemble fallback_data user_city), false)
    else
      match callChunk with
      | none => (market (fallbackAssemble fallback_data user_city), false)
      | some f =>
        let llm_text := text.take 60000
        let chunks := split_text llm_text 20000 500
        let partial_results := chunks.foldr (fun c acc =>
          match f c with
          | some d => if truthy d then d :: acc else acc
          | none => acc) []
        let tender_data :=
          if partial_results.isEmpty then normalize_to_schema fallback_data
          else normalize_to_schema (aggregate_tender_dicts partial_results)
        let td := postprocess_fields tender_data fallback_data
        let td := setdefaultJ td (str "analysis_meta") (.obj [])
        let td := updJ td (str "analysis_meta") (fun m => setKeyJ m (str "user_city") (.s user_city))
        (market td, true)

/-- C10. For any provider configuration, market-analysis behavior, city
and text longer than 60,000 characters, `analyze_text` with
`use_llm=True` returns exactly the `use_llm=False` result: the
`MAX_LLM_TEXT` guard silently forces `use_llm` off before the branch, so
the record is built solely from the heuristic parse and no LLM chunk
call is ever issued. -/
theorem C10_long_text_no_llm (callChunk : Option (Str → Option JVal))
    (market : JVal → JVal) (text : Str) (user_city : Str)
    (h : 60000 < text.length) :
    analyzeText callChunk market text user_city true
      = analyzeText callChunk market text user_city false ∧
    (analyzeText callChunk market text user_city true).2 = false := by
  have hdec : decide (60000 < text.length) = true := decide_eq_true h
  constructor
  · unfold analyzeText
    rw [show (true && !(decide (60000 < text.length))) = false from by rw [hdec]; rfl,
        show (false && !(decide (60000 < text.length))) = false from rfl]
  · unfold analyzeText
    cases hte : text.isEmpty with
    | true =>
      rw [if_pos rfl]
    | false =>
      rw [if_neg Bool.false_ne_true,
          show (true && !(decide (60000 < text.length))) = false from by rw [hdec]; rfl,
          if_pos rfl]

theorem C10_long_text_no_llm_witness :
    60000 < (List.replicate 60001 'a').length ∧
    (analyzeText none id (List.replicate 60001 'a') (str "Москва") true
       = analyzeText none id (List.replicate 60001 'a') (str "Москва") false ∧
     (analyzeText none id (List.replicate 60001 'a') (str "Москва") true).2 = false) :=
  ⟨by simp only [List.length_replicate]; decide,
   C10_long_text_no_llm none id (List.replicate 60001 'a') (str "Москва")
     (by simp only [List.length_replicate]; decide)⟩
